import Mathlib

/-!
Verification development for the `matter-setup-code` repository: a shallow
embedding of the Base38 codec (`src/base38.rs`), the Verhoeff check-digit
algorithm (`src/verhoeff.rs`), the bit utilities (`src/bit_utils.rs`) and the
setup-payload facade (`src/payload/*.rs`), together with theorems settling the
specification claims.  Rust machine integers are modelled as naturals, with
explicit reductions modulo `2 ^ w` exactly where the Rust code can wrap.
-/

deriving instance DecidableEq for Except

namespace Matter

/-! ## Error taxonomy (`src/error.rs`) -/

/-- Errors of the Base38 decoder (`Base38DecodeError` in `src/error.rs`). -/
inductive Base38DecodeError where
  | invalidCharacter (c : Char)
  | invalidChunkLength (n : Nat)
  | valueOutOfRange (value : Nat) (digits : Nat) (expected_bytes : Nat)
  deriving DecidableEq, Repr

/-- Errors of the Verhoeff algorithm (`VerhoeffError` in `src/error.rs`). -/
inductive VerhoeffError where
  | invalidCharacter (c : Char)
  | emptyInput
  deriving DecidableEq, Repr

/-- Errors of the bit utilities (`BitUtilsError` in `src/error.rs`). -/
inductive BitUtilsError where
  | valueOverflow (value : Nat) (bits : Nat)
  deriving DecidableEq, Repr

/-- Payload-level errors (`PayloadError` in `src/error.rs`).  The Rust
variants `InvalidManualCodePrefix` and `InvalidQrCodePrefix` are named
`invalidManualCodeFirstDigit` and `invalidQrCodeHeader` here. -/
inductive PayloadError where
  | invalidManualCodeLength (n : Nat)
  | invalidManualCodeChecksum
  | invalidManualCodeDigit (s : String)
  | invalidManualCodeFirstDigit
  | invalidQrCodeHeader
  | discriminatorOutOfRange (v : Nat)
  deriving DecidableEq, Repr

/-- Modelled from the spec: failures of the external `deku` bit-layout codec
(the spec calls them "a generic framework-level error wrapping
positional/field decode failures"). -/
inductive DekuError where
  | incomplete
  | invalidFlowTag (v : Nat)
  deriving DecidableEq, Repr

/-- The top-level error type (`MatterPayloadError` in `src/error.rs`); each
constructor models one `#[from]` wrapping. -/
inductive MatterPayloadError where
  | base38 (e : Base38DecodeError)
  | verhoeff (e : VerhoeffError)
  | bitUtils (e : BitUtilsError)
  | payload (e : PayloadError)
  | deku (e : DekuError)
  deriving DecidableEq, Repr

/-! ## Decimal rendering

Rust renders the manual-code chunks with `format!` (`{}`, `{:05}`, `{:04}`)
and the check digit with `char::from_digit`; these helpers model the standard
zero-padded decimal rendering. -/

/-- Fuel-driven recursion computing the decimal digits of `n`, most
significant first; the fuel only bounds the digit count, any fuel above `n`
yields the exact rendering. -/
def natDecCharsAux : Nat → Nat → List Char
  | _, 0 => []
  | n, fuel + 1 =>
    if n < 10 then [Char.ofNat (48 + n)]
    else natDecCharsAux (n / 10) fuel ++ [Char.ofNat (48 + n % 10)]

/-- Decimal digit characters of `n`, most significant first (the standard
rendering used by Rust `Display` for unsigned integers). -/
def natDecChars (n : Nat) : List Char := natDecCharsAux n (n + 1)

/-- Plain decimal rendering, models `format!` with `\x7b\x7d`. -/
def natDecString (n : Nat) : String := ⟨natDecChars n⟩

/-- Zero-padded decimal rendering of minimum width `width`, models
`format!` with a `0width` format spec. -/
def padDecString (n width : Nat) : String :=
  ⟨List.replicate (width - (natDecChars n).length) '0' ++ natDecChars n⟩

/-! ## Base38 codec (`src/base38.rs`) -/

/-- The 38-symbol alphabet (`CODES` in `src/base38.rs`). -/
def CODES : List Char :=
  ['0', '1', '2', '3', '4', '5', '6', '7', '8', '9', 'A', 'B', 'C', 'D', 'E',
   'F', 'G', 'H', 'I', 'J', 'K', 'L', 'M', 'N', 'O', 'P', 'Q', 'R', 'S', 'T',
   'U', 'V', 'W', 'X', 'Y', 'Z', '-', '.']

/-- `RADIX` in `src/base38.rs` (`CODES.len()`). -/
def RADIX : Nat := CODES.length

/-- `BASE38_CHARS_NEEDED_IN_CHUNK` in `src/base38.rs`. -/
def BASE38_CHARS_NEEDED_IN_CHUNK : List Nat := [2, 4, 5]

/-- The little-endian packing fold in `encode`
(`acc | ((byte as u64) << (i * 8))`, with `i` the `enumerate` counter;
bytes are below 256, so the `u8`-to-`u64` cast is the identity). -/
def packChunk : List Nat → Nat → Nat → Nat
  | [], _, acc => acc
  | byte :: rest, i, acc => packChunk rest (i + 1) (acc ||| (byte <<< (i * 8)))

/-- The emission loop in `encode`: push `CODES[value % RADIX]`, then divide
`value` by the radix, repeated `chars_needed` times. -/
def emitChars : Nat → Nat → List Char
  | _, 0 => []
  | value, n + 1 => CODES.getD (value % RADIX) '0' :: emitChars (value / RADIX) n

/-- One iteration of the chunk loop in `encode` (`src/base38.rs`). -/
def encodeChunk (chunk : List Nat) : List Char :=
  emitChars (packChunk chunk 0 0) (BASE38_CHARS_NEEDED_IN_CHUNK.getD (chunk.length - 1) 0)

/-- Base38 `encode` from `src/base38.rs`: the input is processed in chunks of
up to 3 bytes (`bytes.chunks(MAX_BYTES_IN_CHUNK)`). -/
def encode : List Nat → List Char
  | [] => []
  | a :: b :: c :: rest => encodeChunk [a, b, c] ++ encode rest
  | chunk => encodeChunk chunk

/-- Character lookup in `decode` (`CODES.iter().position(|&code| code == c)`). -/
def charIndex (c : Char) : Option Nat := CODES.findIdx? (fun code => code == c)

/-- The `try_fold` in `decode`: the chunk is iterated in reverse and folded as
`acc * RADIX + digit`, stopping at the first symbol outside the alphabet.
This function receives the already-reversed chunk. -/
def chunkValue : List Char → Nat → Except Base38DecodeError Nat
  | [], acc => .ok acc
  | c :: rest, acc =>
    match charIndex c with
    | some v => chunkValue rest (acc * RADIX + v)
    | none => .error (.invalidCharacter c)

/-- The byte-unpacking loop at the end of `decode`:
push `value & 0xFF`, then shift `value` right by 8, `bytes_in_chunk` times. -/
def unpackChunk : Nat → Nat → List Nat
  | _, 0 => []
  | value, n + 1 => (value &&& 0xFF) :: unpackChunk (value >>> 8) n

/-- One iteration of the chunk loop in `decode` (`src/base38.rs`): character
validation, chunk-length dispatch, range check, byte unpacking. -/
def decodeChunk (chunk : List Char) : Except MatterPayloadError (List Nat) :=
  match chunkValue chunk.reverse 0 with
  | .error e => .error (.base38 e)
  | .ok value =>
    match chunk.length with
    | 2 => decodeChunkBytes value chunk.length 1
    | 4 => decodeChunkBytes value chunk.length 2
    | 5 => decodeChunkBytes value chunk.length 3
    | _ => .error (.base38 (.invalidChunkLength chunk.length))
where
  /-- The range check (`value >= 1u64 << (8 * bytes_in_chunk)`) and unpack. -/
  decodeChunkBytes (value digits bytes_in_chunk : Nat) :
      Except MatterPayloadError (List Nat) :=
    if 1 <<< (8 * bytes_in_chunk) ≤ value then
      .error (.base38 (.valueOutOfRange value digits bytes_in_chunk))
    else
      .ok (unpackChunk value bytes_in_chunk)

/-- Base38 `decode` from `src/base38.rs`: the character list is processed in
chunks of up to 5 symbols (`chars.chunks(MAX_ENCODED_CHARS_IN_CHUNK)`) and the
decoded bytes of all chunks are concatenated. -/
def decode : List Char → Except MatterPayloadError (List Nat)
  | [] => .ok []
  | c1 :: c2 :: c3 :: c4 :: c5 :: rest =>
    match decodeChunk [c1, c2, c3, c4, c5] with
    | .error e => .error e
    | .ok bytes =>
      match decode rest with
      | .error e => .error e
      | .ok more => .ok (bytes ++ more)
  | chunk => decodeChunk chunk

/-! ## Verhoeff checksum (`src/verhoeff.rs`) -/

/-- `D_TABLE` from `src/verhoeff.rs`. -/
def D_TABLE : List (List Nat) :=
  [[0, 1, 2, 3, 4, 5, 6, 7, 8, 9], [1, 2, 3, 4, 0, 6, 7, 8, 9, 5],
   [2, 3, 4, 0, 1, 7, 8, 9, 5, 6], [3, 4, 0, 1, 2, 8, 9, 5, 6, 7],
   [4, 0, 1, 2, 3, 9, 5, 6, 7, 8], [5, 9, 8, 7, 6, 0, 4, 3, 2, 1],
   [6, 5, 9, 8, 7, 1, 0, 4, 3, 2], [7, 6, 5, 9, 8, 2, 1, 0, 4, 3],
   [8, 7, 6, 5, 9, 3, 2, 1, 0, 4], [9, 8, 7, 6, 5, 4, 3, 2, 1, 0]]

/-- `P_TABLE` from `src/verhoeff.rs`. -/
def P_TABLE : List (List Nat) :=
  [[0, 1, 2, 3, 4, 5, 6, 7, 8, 9], [1, 5, 7, 6, 2, 8, 3, 0, 9, 4],
   [5, 8, 0, 3, 7, 9, 6, 1, 4, 2], [8, 9, 1, 6, 0, 4, 3, 5, 2, 7],
   [9, 4, 5, 3, 1, 2, 6, 8, 7, 0], [4, 2, 8, 6, 5, 7, 3, 9, 0, 1],
   [2, 7, 9, 3, 8, 0, 6, 4, 1, 5], [7, 0, 4, 6, 9, 1, 3, 2, 5, 8]]

/-- `INV_TABLE` from `src/verhoeff.rs`. -/
def INV_TABLE : List Nat := [0, 4, 3, 2, 1, 5, 6, 7, 8, 9]

/-- Table lookup `D_TABLE[c][d]` (indices are always below 10 in the code). -/
def dT (c d : Nat) : Nat := (D_TABLE.getD c []).getD d 0

/-- Table lookup `P_TABLE[r][d]`. -/
def pT (r d : Nat) : Nat := (P_TABLE.getD r []).getD d 0

/-- Table lookup `INV_TABLE[c]`. -/
def invT (c : Nat) : Nat := INV_TABLE.getD c 0

/-- `char::to_digit(10)` from Rust: `some` exactly on the ASCII decimal
digits, whose code points are 48 through 57. -/
def charToDigit (c : Char) : Option Nat :=
  if 48 ≤ c.toNat ∧ c.toNat ≤ 57 then some (c.toNat - 48) else none

/-- Recursion underlying `string_to_digits` (the `chars().map(...).collect()`
over a `Result`). -/
def stringToDigitsGo : List Char → Except VerhoeffError (List Nat)
  | [] => .ok []
  | c :: rest =>
    match charToDigit c with
    | none => .error (.invalidCharacter c)
    | some d =>
      match stringToDigitsGo rest with
      | .error e => .error e
      | .ok ds => .ok (d :: ds)

/-- `string_to_digits` from `src/verhoeff.rs`: empty input is rejected, every
character must be a decimal digit. -/
def string_to_digits (s : String) : Except VerhoeffError (List Nat) :=
  if s.data.isEmpty then .error .emptyInput else stringToDigitsGo s.data

/-- The shared right-to-left fold of the Verhoeff algorithm
(`c = D_TABLE[c][P_TABLE[index % 8][digit]]` over `digits.iter().rev()`); `i`
is the running `enumerate` counter, so starting it at 1 realises the
`(i + 1) % 8` row choice of `calculate_checksum` and starting it at 0 the
`i % 8` row of `validate`. -/
def verhoeffFold : List Nat → Nat → Nat → Nat
  | [], _, c => c
  | d :: rest, i, c => verhoeffFold rest (i + 1) (dT c (pT (i % 8) d))

/-- `calculate_checksum` from `src/verhoeff.rs`. -/
def calculate_checksum (s : String) : Except MatterPayloadError Nat :=
  match string_to_digits s with
  | .error e => .error (.verhoeff e)
  | .ok digits => .ok (invT (verhoeffFold digits.reverse 1 0))

/-- `validate` from `src/verhoeff.rs`: same fold with row `i % 8`, accepting
exactly when the final accumulator is 0. -/
def validate (s : String) : Except MatterPayloadError Bool :=
  match string_to_digits s with
  | .error e => .error (.verhoeff e)
  | .ok digits => .ok (verhoeffFold digits.reverse 0 0 == 0)

/-- `append_checksum` from `src/verhoeff.rs`
(`format!` of the input followed by the checksum digit). -/
def append_checksum (s : String) : Except MatterPayloadError String :=
  match calculate_checksum s with
  | .error e => .error e
  | .ok chk => .ok (s ++ natDecString chk)

/-! ## Bit utilities (`src/bit_utils.rs`) -/

/-- `u64_to_bits_be` from `src/bit_utils.rs`.  The `u64` argument is modelled
as a natural number; claims about it assume `val < 2 ^ 64` where the type
bound matters.  The loop body keeps the explicit `if i < 64` guard of the
source. -/
def u64_to_bits_be (val : Nat) (bits_len : Nat) : Except MatterPayloadError (List Nat) :=
  if val ≠ 0 ∧ bits_len < 64 ∧ val >>> bits_len ≠ 0 then
    .error (.bitUtils (.valueOverflow val bits_len))
  else
    .ok ((List.range bits_len).reverse.map fun i =>
      if i < 64 then (val >>> i) &&& 1 else 0)

/-- `bits_to_u64_be` from `src/bit_utils.rs`: `(acc << 1) | (bit & 1)` on a
`u64` accumulator, hence the reduction modulo `2 ^ 64`. -/
def bits_to_u64_be (bits : List Nat) : Nat :=
  bits.foldl (fun acc bit => (acc <<< 1) % 2 ^ 64 ||| (bit &&& 1)) 0

/-- The per-chunk fold of `bits_to_bytes_be`
(`acc | (bit << (7 - i))` on a `u8` accumulator, `i` the `enumerate`
counter; the shift result is reduced modulo 256 as on `u8`). -/
def packByte : List Nat → Nat → Nat → Nat
  | [], _, acc => acc
  | bit :: rest, i, acc => packByte rest (i + 1) (acc ||| (bit <<< (7 - i)) % 256)

/-- `bits_to_bytes_be` from `src/bit_utils.rs`: `bits.chunks(8)`, each chunk
folded into one byte, most significant bit first (the trailing chunk of fewer
than 8 bits is padded at the least significant end by the `7 - i` shifts). -/
def bits_to_bytes_be : List Nat → List Nat
  | [] => []
  | b0 :: b1 :: b2 :: b3 :: b4 :: b5 :: b6 :: b7 :: rest =>
    packByte [b0, b1, b2, b3, b4, b5, b6, b7] 0 0 :: bits_to_bytes_be rest
  | chunk => [packByte chunk 0 0]

/-- The 8 bits of one byte, most significant first (inner loop of
`bytes_to_bits_be`). -/
def byteBits (byte : Nat) : List Nat :=
  (List.range 8).reverse.map fun i => (byte >>> i) &&& 1

/-- `bytes_to_bits_be` from `src/bit_utils.rs`. -/
def bytes_to_bits_be : List Nat → List Nat
  | [] => []
  | byte :: rest => byteBits byte ++ bytes_to_bits_be rest

/-! ## Payload layer (`src/payload/`) -/

/-- `CommissioningFlow` from `src/payload/common.rs`. -/
inductive CommissioningFlow where
  | Standard
  | UserIntent
  | Custom
  deriving DecidableEq, Repr

/-- The 2-bit wire tag of a flow (`#[repr(u8)]` discriminants 0, 1, 2). -/
def CommissioningFlow.val : CommissioningFlow → Nat
  | .Standard => 0
  | .UserIntent => 1
  | .Custom => 2

/-- Modelled from the deku derive on `CommissioningFlow`: decoding the 2-bit
tag, rejecting the unassigned pattern 3. -/
def CommissioningFlow.ofBits (v : Nat) : Except MatterPayloadError CommissioningFlow :=
  match v with
  | 0 => .ok .Standard
  | 1 => .ok .UserIntent
  | 2 => .ok .Custom
  | v => .error (.deku (.invalidFlowTag v))

/-- `ManualCodeData` from `src/payload/manual.rs` (field widths
1/1/4/14/13/16?/16?/7 bits). -/
structure ManualCodeData where
  version : Nat
  vid_pid_present : Nat
  discriminator : Nat
  pincode_lsb : Nat
  pincode_msb : Nat
  vid : Option Nat
  pid : Option Nat
  padding : Nat
  deriving DecidableEq, Repr

/-- `QrCodeData` from `src/payload/qr.rs` (field widths
4/27/12/8/2/16/16/3 bits, declaration order). -/
structure QrCodeData where
  padding : Nat
  pincode : Nat
  discriminator : Nat
  discovery : Nat
  flow : CommissioningFlow
  pid : Nat
  vid : Nat
  version : Nat
  deriving DecidableEq, Repr

/-- Modelled from the deku derive (`endian = "big"`, `bits = "w"`): a
big-endian bit-field write emits the low `w` bits of the value, most
significant first. -/
def fieldBits (v w : Nat) : List Nat :=
  (List.range w).reverse.map fun i => (v >>> i) &&& 1

/-- Big-endian value of a list of bits (each entry 0 or 1). -/
def bitsVal (bits : List Nat) : Nat :=
  bits.foldl (fun acc b => 2 * acc + b) 0

/-- Modelled from the deku derive: read one `w`-bit big-endian field from the
bit stream, failing when fewer than `w` bits remain. -/
def readField (w : Nat) (bits : List Nat) : Except MatterPayloadError (Nat × List Nat) :=
  if w ≤ bits.length then
    .ok (bitsVal (bits.take w), bits.drop w)
  else .error (.deku .incomplete)

/-- Modelled from the deku derive on `ManualCodeData`: serialize the fields in
declaration order (optional fields write their content when `some` and nothing
when `none`) and pack the bit stream into bytes. -/
def ManualCodeData.to_bytes (d : ManualCodeData) : List Nat :=
  bits_to_bytes_be
    (fieldBits d.version 1 ++ fieldBits d.vid_pid_present 1 ++
     fieldBits d.discriminator 4 ++ fieldBits d.pincode_lsb 14 ++
     fieldBits d.pincode_msb 13 ++
     (match d.vid with | some v => fieldBits v 16 | none => []) ++
     (match d.pid with | some p => fieldBits p 16 | none => []) ++
     fieldBits d.padding 7)

/-- Modelled from the deku derive on `ManualCodeData`: read the fields in
declaration order; `vid`/`pid` are read only when
`vid_pid_present == 1` (the `cond` attribute). -/
def ManualCodeData.from_bytes (bytes : List Nat) : Except MatterPayloadError ManualCodeData :=
  match readField 1 (bytes_to_bits_be bytes) with
  | .error e => .error e
  | .ok (version, r1) =>
  match readField 1 r1 with
  | .error e => .error e
  | .ok (flag, r2) =>
  match readField 4 r2 with
  | .error e => .error e
  | .ok (disc, r3) =>
  match readField 14 r3 with
  | .error e => .error e
  | .ok (lsb, r4) =>
  match readField 13 r4 with
  | .error e => .error e
  | .ok (msb, r5) =>
  match (if flag == 1 then
      match readField 16 r5 with
      | .error e => .error e
      | .ok (v, ra) =>
        match readField 16 ra with
        | .error e => .error e
        | .ok (p, rb) => .ok (some v, some p, rb)
    else .ok (none, none, r5) :
      Except MatterPayloadError (Option Nat × Option Nat × List Nat)) with
  | .error e => .error e
  | .ok (vid, pid, r6) =>
  match readField 7 r6 with
  | .error e => .error e
  | .ok (pad, _) => .ok ⟨version, flag, disc, lsb, msb, vid, pid, pad⟩

/-- Modelled from the deku derive on `QrCodeData`: serialize the fields in
declaration order and pack into bytes (88 bits, 11 bytes). -/
def QrCodeData.to_bytes (q : QrCodeData) : List Nat :=
  bits_to_bytes_be
    (fieldBits q.padding 4 ++ fieldBits q.pincode 27 ++
     fieldBits q.discriminator 12 ++ fieldBits q.discovery 8 ++
     fieldBits q.flow.val 2 ++ fieldBits q.pid 16 ++ fieldBits q.vid 16 ++
     fieldBits q.version 3)

/-- Modelled from the deku derive on `QrCodeData`: read the fields in
declaration order; the 2-bit flow tag rejects the unassigned pattern. -/
def QrCodeData.from_bytes (bytes : List Nat) : Except MatterPayloadError QrCodeData :=
  match readField 4 (bytes_to_bits_be bytes) with
  | .error e => .error e
  | .ok (padding, r1) =>
  match readField 27 r1 with
  | .error e => .error e
  | .ok (pincode, r2) =>
  match readField 12 r2 with
  | .error e => .error e
  | .ok (disc, r3) =>
  match readField 8 r3 with
  | .error e => .error e
  | .ok (discovery, r4) =>
  match readField 2 r4 with
  | .error e => .error e
  | .ok (flowTag, r5) =>
  match CommissioningFlow.ofBits flowTag with
  | .error e => .error e
  | .ok flow =>
  match readField 16 r5 with
  | .error e => .error e
  | .ok (pid, r6) =>
  match readField 16 r6 with
  | .error e => .error e
  | .ok (vid, r7) =>
  match readField 3 r7 with
  | .error e => .error e
  | .ok (version, _) => .ok ⟨padding, pincode, disc, discovery, flow, pid, vid, version⟩

/-- `QrCodeData::parse_from_str` from `src/payload/qr.rs`: check the `MT:`
marker, Base38-decode the remainder, reverse the bytes, read the layout. -/
def QrCodeData.parse_from_str (payload : String) : Except MatterPayloadError QrCodeData :=
  if "MT:".data.isPrefixOf payload.data then
    match decode (payload.data.drop 3) with
    | .error e => .error e
    | .ok decoded_bytes => QrCodeData.from_bytes decoded_bytes.reverse
  else .error (.payload .invalidQrCodeHeader)

/-- Numeric value of a decimal digit string (used by the chunk parser). -/
def digitsVal (cs : List Char) : Nat :=
  cs.foldl (fun acc c => acc * 10 + (c.toNat - 48)) 0

/-- The `parse_chunk` closure in `ManualCodeData::parse_from_str`: slice the
given character range (`payload.get(range)`, `none` out of bounds; character
positions coincide with the byte positions of the source on every reachable
path because slicing only happens after `validate` accepted the string, which
forces all-ASCII input) and parse it with `str::parse::<u64>` (which accepts
decimal digit strings; overflow is unreachable for these at most 5-digit
chunks). -/
def parseChunk (payload : String) (a b : Nat) : Except MatterPayloadError Nat :=
  if b ≤ payload.data.length then
    let sub := (payload.data.drop a).take (b - a)
    if sub.isEmpty || !sub.all (fun c => (charToDigit c).isSome) then
      .error (.payload (.invalidManualCodeDigit payload))
    else .ok (digitsVal sub)
  else .error (.payload (.invalidManualCodeDigit payload))

/-- `ManualCodeData::parse_from_str` from `src/payload/manual.rs`: length
check (on the byte length, `payload.len()`), Verhoeff validation, first-digit
check, chunk parsing, bit-stream construction, byte packing and re-reading
through the layout reader. -/
def ManualCodeData.parse_from_str (payload : String) : Except MatterPayloadError ManualCodeData :=
  let len := payload.utf8ByteSize
  if len ≠ 11 ∧ len ≠ 21 then .error (.payload (.invalidManualCodeLength len))
  else
    match validate payload with
    | .error e => .error e
    | .ok false => .error (.payload .invalidManualCodeChecksum)
    | .ok true =>
      match payload.data.head? >>= charToDigit with
      | none => .error (.payload (.invalidManualCodeDigit payload))
      | some first_digit =>
        if 7 < first_digit then .error (.payload .invalidManualCodeFirstDigit)
        else
          let is_long := first_digit &&& (1 <<< 2) ≠ 0
          match parseChunk payload 0 1 with
          | .error e => .error e
          | .ok chunk1 =>
          match parseChunk payload 1 6 with
          | .error e => .error e
          | .ok chunk2 =>
          match parseChunk payload 6 10 with
          | .error e => .error e
          | .ok chunk3 =>
          match (if is_long then
              match parseChunk payload 10 15 with
              | .error e => .error e
              | .ok c4 =>
                match parseChunk payload 15 20 with
                | .error e => .error e
                | .ok c5 => .ok (c4, c5)
            else .ok (0, 0) : Except MatterPayloadError (Nat × Nat)) with
          | .error e => .error e
          | .ok (chunk4, chunk5) =>
          match u64_to_bits_be chunk1 4 with
          | .error e => .error e
          | .ok b1 =>
          match u64_to_bits_be chunk2 16 with
          | .error e => .error e
          | .ok b2 =>
          match u64_to_bits_be chunk3 13 with
          | .error e => .error e
          | .ok b3 =>
          match (if is_long then
              match u64_to_bits_be chunk4 16 with
              | .error e => .error e
              | .ok b4 =>
                match u64_to_bits_be chunk5 16 with
                | .error e => .error e
                | .ok b5 => .ok (b4 ++ b5)
            else .ok (List.replicate 32 0) :
              Except MatterPayloadError (List Nat)) with
          | .error e => .error e
          | .ok bvp =>
            ManualCodeData.from_bytes
              (bits_to_bytes_be (b1 ++ b2 ++ b3 ++ bvp ++ List.replicate 7 0))

/-- `SetupPayload` from `src/payload/mod.rs`. -/
structure SetupPayload where
  long_discriminator : Option Nat
  short_discriminator : Nat
  pincode : Nat
  discovery : Option Nat
  flow : CommissioningFlow
  vid : Option Nat
  pid : Option Nat
  deriving DecidableEq, Repr

/-- `SetupPayload::new` from `src/payload/mod.rs`: discriminator 0 maps to an
absent long discriminator, the short discriminator is the `u8` cast of
`discriminator >> 8`, and a zero rendezvous mask is filtered out. -/
def SetupPayload.new (discriminator pincode : Nat) (rendezvous : Option Nat)
    (flow : Option CommissioningFlow) (vid pid : Option Nat) : SetupPayload :=
  { long_discriminator := if discriminator = 0 then none else some discriminator
    short_discriminator := (discriminator >>> 8) % 256
    pincode := pincode
    discovery := rendezvous.filter fun d => d ≠ 0
    flow := flow.getD .Standard
    vid := vid
    pid := pid }

/-- `SetupPayload::parse_str` from `src/payload/mod.rs`: dispatch on the
`MT:` marker; the manual path overwrites the short discriminator with the
4-bit container value and clears the long discriminator and discovery mask. -/
def SetupPayload.parse_str (payload_str : String) : Except MatterPayloadError SetupPayload :=
  if "MT:".data.isPrefixOf payload_str.data then
    match QrCodeData.parse_from_str payload_str with
    | .error e => .error e
    | .ok c =>
      .ok (SetupPayload.new c.discriminator c.pincode (some c.discovery)
        (some c.flow) (some c.vid) (some c.pid))
  else
    match ManualCodeData.parse_from_str payload_str with
    | .error e => .error e
    | .ok c =>
      let base := SetupPayload.new c.discriminator
        ((c.pincode_msb <<< 14) ||| c.pincode_lsb) none
        (if c.vid_pid_present ≠ 0 then some .Custom else none)
        (if c.vid_pid_present ≠ 0 then c.vid else none)
        (if c.vid_pid_present ≠ 0 then c.pid else none)
      .ok { base with short_discriminator := c.discriminator,
                      long_discriminator := none, discovery := none }

/-- Result type of QR generation: `SetupPayload::to_qr_code_str` either
returns a string, fails with a typed error, or aborts abnormally through
`Option::expect`; the abnormal abort is modelled by the `panicked`
constructor. -/
inductive GenError where
  | panicked (msg : String)
  | failed (e : MatterPayloadError)
  deriving DecidableEq, Repr

/-- `SetupPayload::to_qr_code_str` from `src/payload/mod.rs`: the four
`expect` calls are evaluated in the field order of the struct literal
(vid, pid, discovery, discriminator). -/
def SetupPayload.to_qr_code_str (p : SetupPayload) : Except GenError String :=
  match p.vid with
  | none => .error (.panicked "VID is required for QR code generation")
  | some vid =>
  match p.pid with
  | none => .error (.panicked "PID is required for QR code generation")
  | some pid =>
  match p.discovery with
  | none => .error (.panicked "Discovery is required for QR code generation")
  | some discovery =>
  match p.long_discriminator with
  | none => .error (.panicked "Long discriminator is required for QR code generation")
  | some discriminator =>
    let qr_data : QrCodeData :=
      { version := 0, vid := vid, pid := pid, flow := p.flow,
        discovery := discovery, discriminator := discriminator,
        pincode := p.pincode, padding := 0 }
    .ok ("MT:" ++ (⟨encode qr_data.to_bytes.reverse⟩ : String))

/-- `SetupPayload::to_manual_code_str` from `src/payload/mod.rs`: the
discriminator duality rule, the 4-bit range check, the Manual layout record,
serialization, bit slicing at 4/16/13, decimal formatting with widths 1/5/4,
and the appended Verhoeff digit (`char::from_digit`, whose `unwrap` cannot
fire since checksums are below 10). -/
def SetupPayload.to_manual_code_str (p : SetupPayload) : Except MatterPayloadError String :=
  let discriminator_val :=
    if p.short_discriminator = 0 ∧ p.long_discriminator.getD 0 ≤ 15 then
      p.long_discriminator.getD 0 % 256
    else p.short_discriminator
  if 15 < discriminator_val then
    .error (.payload (.discriminatorOutOfRange discriminator_val))
  else
    let manual_code : ManualCodeData :=
      { version := 0
        vid_pid_present := if p.flow = .Standard then 0 else 1
        discriminator := discriminator_val
        pincode_lsb := p.pincode &&& 0x3FFF
        pincode_msb := (p.pincode >>> 14) &&& 0x1FFF
        vid := if p.flow = .Standard then some 0 else p.vid
        pid := if p.flow = .Standard then some 0 else p.pid
        padding := 0 }
    let bits := bytes_to_bits_be manual_code.to_bytes
    let c1 := bits_to_u64_be (bits.take 4)
    let c2 := bits_to_u64_be ((bits.drop 4).take 16)
    let c3 := bits_to_u64_be ((bits.drop 20).take 13)
    let code_string := natDecString c1 ++ padDecString c2 5 ++ padDecString c3 4
    match calculate_checksum code_string with
    | .error e => .error e
    | .ok chk => .ok (code_string ++ (⟨[Char.ofNat (48 + chk)]⟩ : String))

/-- The string made of the given decimal digits. -/
def digitsToString (ds : List Nat) : String := ⟨ds.map fun d => Char.ofNat (48 + d)⟩

end Matter

namespace Matter

/-! ## General lemmas -/

/-- Shorthand for the `u8` invariant on short discriminators. -/
theorem shiftRight_eight_lt {d : Nat} (h : d < 2 ^ 12) : d >>> 8 < 16 := by
  rw [Nat.shiftRight_eq_div_pow]
  omega

/-- `SetupPayload::new` keeps the short discriminator equal to the shifted
`u8` cast of the long one whenever the latter is recorded. -/
theorem new_short_of_long (disc pincode : Nat) (rendezvous : Option Nat)
    (flow : Option CommissioningFlow) (vid pid : Option Nat) (d : Nat)
    (h : (SetupPayload.new disc pincode rendezvous flow vid pid).long_discriminator = some d) :
    (SetupPayload.new disc pincode rendezvous flow vid pid).short_discriminator
      = (d >>> 8) % 256 := by
  unfold SetupPayload.new at h ⊢
  by_cases hd : disc = 0 <;> simp [hd] at h ⊢
  omega

/-! ## Claim theorems, part one -/

/-- Claim C1: for the descriptor with long discriminator 1132, PIN 69414998,
VID 0xFFF1, PID 0x8000, discovery mask 4 and Standard flow, QR generation
returns exactly "MT:Y.K904QI143LH13SH10"; parsing that string reproduces the
same discriminator, PIN, VID, PID, discovery and flow; manual-code generation
returns exactly "11237442363"; and parsing that manual code reproduces the
same short discriminator and PIN. -/
theorem c1_end_to_end :
    (SetupPayload.mk (some 1132) 4 69414998 (some 4) .Standard (some 0xfff1)
        (some 0x8000)).to_qr_code_str = .ok "MT:Y.K904QI143LH13SH10" ∧
    SetupPayload.parse_str "MT:Y.K904QI143LH13SH10"
      = .ok (SetupPayload.mk (some 1132) 4 69414998 (some 4) .Standard
          (some 0xfff1) (some 0x8000)) ∧
    (SetupPayload.mk (some 1132) 4 69414998 (some 4) .Standard (some 0xfff1)
        (some 0x8000)).to_manual_code_str = .ok "11237442363" ∧
    ∃ p, SetupPayload.parse_str "11237442363" = .ok p ∧
      p.short_discriminator = 4 ∧ p.pincode = 69414998 := by
  refine ⟨by decide, by decide, by decide,
    SetupPayload.mk none 4 69414998 none .Standard none none, by decide, by decide, by decide⟩

/-- Claim C6: `u64_to_bits_be` produces exactly `width` bits most significant
first, fails with `ValueOverflow` exactly when the value needs more than
`width` bits (so width 0 only accepts value 0 and value 0 never overflows),
bits beyond position 63 are zero when `width > 64`, and the four concrete
vectors from the spec hold. -/
theorem c6_bit_overflow :
    (∀ val w, val < 2 ^ 64 →
      ((∃ l, u64_to_bits_be val w = .ok l) ↔ val < 2 ^ w) ∧
      (∀ l, u64_to_bits_be val w = .ok l → l.length = w ∧
        ∀ i, (hi : i < w) → 64 ≤ w - 1 - i → l.getD i 1 = 0)) ∧
    u64_to_bits_be 16 4 = .error (.bitUtils (.valueOverflow 16 4)) ∧
    u64_to_bits_be 15 4 = .ok [1, 1, 1, 1] ∧
    u64_to_bits_be 0 0 = .ok [] ∧
    u64_to_bits_be 1 0 = .error (.bitUtils (.valueOverflow 1 0)) := by
  refine ⟨?_, by decide, by decide, by decide, by decide⟩
  intro val w hval
  have hcond : (val ≠ 0 ∧ w < 64 ∧ val >>> w ≠ 0) ↔ ¬ val < 2 ^ w := by
    rw [Nat.shiftRight_eq_div_pow]
    by_cases hw : w < 64
    · have hp : 0 < 2 ^ w := Nat.pos_pow_of_pos w (by omega)
      constructor
      · rintro ⟨h0, -, hdiv⟩
        intro hlt
        exact hdiv (Nat.div_eq_of_lt hlt)
      · intro hge
        refine ⟨by omega, hw, ?_⟩
        have h1 : 1 ≤ val / 2 ^ w := (Nat.le_div_iff_mul_le hp).mpr (by omega)
        omega
    · have : 2 ^ 64 ≤ 2 ^ w := Nat.pow_le_pow_right (by omega) (by omega)
      constructor
      · rintro ⟨-, hw64, -⟩; omega
      · intro hge; omega
  constructor
  · constructor
    · rintro ⟨l, hl⟩
      unfold u64_to_bits_be at hl
      by_cases hc : val ≠ 0 ∧ w < 64 ∧ val >>> w ≠ 0
      · rw [if_pos hc] at hl
        exact absurd hl (by simp)
      · exact not_not.mp ((not_iff_not.mpr hcond).mp hc)
    · intro hlt
      have hc : ¬ (val ≠ 0 ∧ w < 64 ∧ val >>> w ≠ 0) := fun h => hcond.mp h hlt
      refine ⟨(List.range w).reverse.map fun i =>
        if i < 64 then (val >>> i) &&& 1 else 0, ?_⟩
      unfold u64_to_bits_be
      rw [if_neg hc]
  · intro l hl
    unfold u64_to_bits_be at hl
    by_cases hc : val ≠ 0 ∧ w < 64 ∧ val >>> w ≠ 0
    · rw [if_pos hc] at hl
      exact absurd hl (by simp)
    · rw [if_neg hc] at hl
      simp only [Except.ok.injEq] at hl
      subst hl
      refine ⟨by simp, ?_⟩
      intro i hi h64
      have hi' : i < (((List.range w).reverse.map fun i =>
          if i < 64 then (val >>> i) &&& 1 else 0)).length := by simp [hi]
      rw [List.getD_eq_getElem?_getD, List.getElem?_eq_getElem hi',
        List.getElem_map]
      have hrl : i < (List.range w).reverse.length := by simp [hi]
      have hr : (List.range w).reverse[i] = w - 1 - i := by
        rw [List.getElem_reverse]
        simp [List.getElem_range]
      rw [hr, if_neg (by omega)]
      rfl

/-- The concrete instance of claim C6 at value 15, width 4. -/
theorem c6_bit_overflow_witness : ([1, 1, 1, 1] : List Nat).length = 4 :=
  ((c6_bit_overflow.1 15 4 (by norm_num)).2 [1, 1, 1, 1] (by decide)).1

/-- QR generation reaches the abnormal `panicked` result whenever one of its
four required optional fields is absent. -/
theorem qr_missing_panics (p : SetupPayload)
    (h : p.vid = none ∨ p.pid = none ∨ p.discovery = none ∨
      p.long_discriminator = none) :
    ∃ msg, p.to_qr_code_str = .error (.panicked msg) := by
  obtain ⟨ld, sd, pin, disco, fl, vid, pid⟩ := p
  cases vid with
  | none => exact ⟨_, rfl⟩
  | some v =>
    cases pid with
    | none => exact ⟨_, rfl⟩
    | some q =>
      cases disco with
      | none => exact ⟨_, rfl⟩
      | some dm =>
        cases ld with
        | none => exact ⟨_, rfl⟩
        | some d => simp at h

/-- Claim C7: QR generation aborts abnormally (modelled by the `panicked`
result) whenever any of VID, PID, discovery, or the long discriminator is
absent, and never aborts abnormally when all four are present. -/
theorem c7_qr_generation_missing_fields :
    ∀ p : SetupPayload,
      ((p.vid = none ∨ p.pid = none ∨ p.discovery = none ∨
          p.long_discriminator = none) →
        ∃ msg, p.to_qr_code_str = .error (.panicked msg)) ∧
      ((p.vid ≠ none ∧ p.pid ≠ none ∧ p.discovery ≠ none ∧
          p.long_discriminator ≠ none) →
        ∀ msg, p.to_qr_code_str ≠ .error (.panicked msg)) := by
  intro p
  refine ⟨qr_missing_panics p, ?_⟩
  obtain ⟨ld, sd, pin, disco, fl, vid, pid⟩ := p
  rintro ⟨h1, h2, h3, h4⟩ msg
  cases vid with
  | none => simp at h1
  | some v =>
    cases pid with
    | none => simp at h2
    | some q =>
      cases disco with
      | none => simp at h3
      | some dm =>
        cases ld with
        | none => simp at h4
        | some d => simp [SetupPayload.to_qr_code_str]

/-- The concrete instance of claim C7 at a descriptor missing its VID. -/
theorem c7_qr_generation_missing_fields_witness :
    ∃ msg, (SetupPayload.mk (some 1132) 4 69414998 (some 4) .Standard none
      none).to_qr_code_str = .error (.panicked msg) :=
  (c7_qr_generation_missing_fields
    (SetupPayload.mk (some 1132) 4 69414998 (some 4) .Standard none none)).1
    (Or.inl rfl)

/-- Claim C9: whenever a descriptor built by the constructor or by a
successful parse records a long discriminator, its short discriminator is the
bit-shifted `u8` promotion of it (for 12-bit discriminators, exactly the top
4 bits); the manual parse path records no long discriminator, so the
invariant holds for every built descriptor. -/
theorem c9_short_discriminator_invariant :
    (∀ disc pincode rendezvous flow vid pid d,
      (SetupPayload.new disc pincode rendezvous flow vid pid).long_discriminator
          = some d →
      (SetupPayload.new disc pincode rendezvous flow vid pid).short_discriminator
          = (d >>> 8) % 256 ∧
      (d < 2 ^ 12 →
        (SetupPayload.new disc pincode rendezvous flow vid pid).short_discriminator
          = d >>> 8)) ∧
    (∀ s p d, SetupPayload.parse_str s = .ok p →
      p.long_discriminator = some d → p.short_discriminator = (d >>> 8) % 256) := by
  have hmain : ∀ disc pincode rendezvous flow vid pid d,
      (SetupPayload.new disc pincode rendezvous flow vid pid).long_discriminator
          = some d →
      (SetupPayload.new disc pincode rendezvous flow vid pid).short_discriminator
          = (d >>> 8) % 256 :=
    fun disc pincode rendezvous flow vid pid d h =>
      new_short_of_long disc pincode rendezvous flow vid pid d h
  constructor
  · intro disc pincode rendezvous flow vid pid d h
    refine ⟨hmain disc pincode rendezvous flow vid pid d h, fun h12 => ?_⟩
    rw [hmain disc pincode rendezvous flow vid pid d h]
    exact Nat.mod_eq_of_lt (by have := shiftRight_eight_lt h12; omega)
  · intro s p d hp hlong
    unfold SetupPayload.parse_str at hp
    by_cases hpre : "MT:".data.isPrefixOf s.data
    · simp only [if_pos hpre] at hp
      cases hq : QrCodeData.parse_from_str s with
      | error e => rw [hq] at hp; exact absurd hp (by simp)
      | ok c =>
        rw [hq] at hp
        simp only [Except.ok.injEq] at hp
        subst hp
        exact hmain _ _ _ _ _ _ _ hlong
    · simp only [if_neg hpre] at hp
      cases hm : ManualCodeData.parse_from_str s with
      | error e => rw [hm] at hp; exact absurd hp (by simp)
      | ok c =>
        rw [hm] at hp
        simp only [Except.ok.injEq] at hp
        subst hp
        simp at hlong

/-- The concrete instance of claim C9 at constructor input 1132. -/
theorem c9_short_discriminator_invariant_witness :
    (SetupPayload.new 1132 69414998 none none none none).short_discriminator
      = 1132 >>> 8 :=
  ((c9_short_discriminator_invariant.1 1132 69414998 none none none none 1132
    (by decide)).2 (by decide))

/-- Claim C10: the constructor maps discriminator 0 to an absent long
discriminator (any nonzero discriminator to a present one) and a zero
discovery mask to an absent discovery field, and QR generation aborts
abnormally on descriptors built from discriminator 0 or discovery mask 0. -/
theorem c10_constructor_zero_normalization :
    ∀ pincode rendezvous flow vid pid,
      (SetupPayload.new 0 pincode rendezvous flow vid pid).long_discriminator
          = none ∧
      (∀ d, d ≠ 0 →
        (SetupPayload.new d pincode rendezvous flow vid pid).long_discriminator
          = some d) ∧
      (∀ d, (SetupPayload.new d pincode (some 0) flow vid pid).discovery = none) ∧
      (∃ msg, (SetupPayload.new 0 pincode rendezvous flow vid
          pid).to_qr_code_str = .error (.panicked msg)) ∧
      (∀ d, ∃ msg, (SetupPayload.new d pincode (some 0) flow vid
          pid).to_qr_code_str = .error (.panicked msg)) := by
  intro pincode rendezvous flow vid pid
  refine ⟨by simp [SetupPayload.new], fun d hd => by simp [SetupPayload.new, hd], ?_, ?_, ?_⟩
  · intro d
    simp [SetupPayload.new, Option.filter]
  · exact qr_missing_panics _
      (Or.inr (Or.inr (Or.inr (by simp [SetupPayload.new]))))
  · intro d
    exact qr_missing_panics _
      (Or.inr (Or.inr (Or.inl (by simp [SetupPayload.new, Option.filter]))))

/-- The concrete instance of claim C10 at discriminator 0. -/
theorem c10_constructor_zero_normalization_witness :
    (SetupPayload.new 5 69414998 none none none none).long_discriminator
      = some 5 :=
  (c10_constructor_zero_normalization 69414998 none none none none).2.1 5 (by decide)

end Matter

namespace Matter

/-! ## Verhoeff group facts

The composition table is a quasigroup operation with identity row/column 0,
the permutation rows are injective, and the pair of adjacent rows defeats
transpositions; all facts are finite checks over the literal tables. -/

/-- The composition table is closed over the digits. -/
theorem dT_lt {c d : Nat} (hc : c < 10) (hd : d < 10) : dT c d < 10 := by
  have H : ∀ c : Fin 10, ∀ d : Fin 10, dT c.val d.val < 10 := by decide
  exact H ⟨c, hc⟩ ⟨d, hd⟩

/-- The permutation table is closed over the digits. -/
theorem pT_lt {r d : Nat} (hr : r < 8) (hd : d < 10) : pT r d < 10 := by
  have H : ∀ r : Fin 8, ∀ d : Fin 10, pT r.val d.val < 10 := by decide
  exact H ⟨r, hr⟩ ⟨d, hd⟩

/-- The inverse table is closed over the digits. -/
theorem invT_lt {c : Nat} (hc : c < 10) : invT c < 10 := by
  have H : ∀ c : Fin 10, invT c.val < 10 := by decide
  exact H ⟨c, hc⟩

/-- The composition table is associative (it is the dihedral group D5). -/
theorem dT_assoc {a b c : Nat} (ha : a < 10) (hb : b < 10) (hc : c < 10) :
    dT (dT a b) c = dT a (dT b c) := by
  have H : ∀ a : Fin 10, ∀ b : Fin 10, ∀ c : Fin 10,
      dT (dT a.val b.val) c.val = dT a.val (dT b.val c.val) := by decide
  exact H ⟨a, ha⟩ ⟨b, hb⟩ ⟨c, hc⟩

/-- Left translations of the composition table are injective. -/
theorem dT_left_inj {c a b : Nat} (hc : c < 10) (ha : a < 10) (hb : b < 10)
    (hab : a ≠ b) : dT c a ≠ dT c b := by
  have H : ∀ c : Fin 10, ∀ a : Fin 10, ∀ b : Fin 10, a.val ≠ b.val →
      dT c.val a.val ≠ dT c.val b.val := by decide
  exact H ⟨c, hc⟩ ⟨a, ha⟩ ⟨b, hb⟩ hab

/-- Right translations of the composition table are injective. -/
theorem dT_right_inj {y a b : Nat} (hy : y < 10) (ha : a < 10) (hb : b < 10)
    (hab : a ≠ b) : dT a y ≠ dT b y := by
  have H : ∀ y : Fin 10, ∀ a : Fin 10, ∀ b : Fin 10, a.val ≠ b.val →
      dT a.val y.val ≠ dT b.val y.val := by decide
  exact H ⟨y, hy⟩ ⟨a, ha⟩ ⟨b, hb⟩ hab

/-- Each permutation row is injective. -/
theorem pT_inj {r a b : Nat} (hr : r < 8) (ha : a < 10) (hb : b < 10)
    (hab : a ≠ b) : pT r a ≠ pT r b := by
  have H : ∀ r : Fin 8, ∀ a : Fin 10, ∀ b : Fin 10, a.val ≠ b.val →
      pT r.val a.val ≠ pT r.val b.val := by decide
  exact H ⟨r, hr⟩ ⟨a, ha⟩ ⟨b, hb⟩ hab

/-- Permutation row 0 is the identity. -/
theorem pT_zero {d : Nat} (hd : d < 10) : pT 0 d = d := by
  have H : ∀ d : Fin 10, pT 0 d.val = d.val := by decide
  exact H ⟨d, hd⟩

/-- Row 0 of the composition table is the identity. -/
theorem dT_zero_left {d : Nat} (hd : d < 10) : dT 0 d = d := by
  have H : ∀ d : Fin 10, dT 0 d.val = d.val := by decide
  exact H ⟨d, hd⟩

/-- Column 0 of the composition table is the identity. -/
theorem dT_zero_right {c : Nat} (hc : c < 10) : dT c 0 = c := by
  have H : ∀ c : Fin 10, dT c.val 0 = c.val := by decide
  exact H ⟨c, hc⟩

/-- The inverse table satisfies `d(inv(c), c) = 0`. -/
theorem invT_dT {c : Nat} (hc : c < 10) : dT (invT c) c = 0 := by
  have H : ∀ c : Fin 10, dT (invT c.val) c.val = 0 := by decide
  exact H ⟨c, hc⟩

/-- The adjacent-row transposition property of the Verhoeff tables: swapping
two distinct digits processed at consecutive positions always changes the
accumulator. -/
theorem dT_transposition {c r a b : Nat} (hc : c < 10) (hr : r < 8)
    (ha : a < 10) (hb : b < 10) (hab : a ≠ b) :
    dT (dT c (pT r a)) (pT ((r + 1) % 8) b)
      ≠ dT (dT c (pT r b)) (pT ((r + 1) % 8) a) := by
  have H : ∀ c : Fin 10, ∀ r : Fin 8, ∀ a : Fin 10, ∀ b : Fin 10,
      a.val ≠ b.val →
      dT (dT c.val (pT r.val a.val)) (pT ((r.val + 1) % 8) b.val)
        ≠ dT (dT c.val (pT r.val b.val)) (pT ((r.val + 1) % 8) a.val) := by
    decide
  exact H ⟨c, hc⟩ ⟨r, hr⟩ ⟨a, ha⟩ ⟨b, hb⟩ hab

/-! ## Verhoeff fold lemmas -/

/-- The fold stays within the digit range. -/
theorem verhoeffFold_lt {ds : List Nat} (hds : ∀ d ∈ ds, d < 10) :
    ∀ i c, c < 10 → verhoeffFold ds i c < 10 := by
  induction ds with
  | nil => intro i c hc; exact hc
  | cons d rest ih =>
    intro i c hc
    have hd : d < 10 := hds d (by simp)
    have hrest : ∀ x ∈ rest, x < 10 := fun x hx => hds x (by simp [hx])
    simp only [verhoeffFold]
    exact ih hrest (i + 1) _ (dT_lt hc (pT_lt (Nat.mod_lt i (by omega)) hd))

/-- The fold is injective in the accumulator. -/
theorem verhoeffFold_inj {ds : List Nat} (hds : ∀ d ∈ ds, d < 10) :
    ∀ i c1 c2, c1 < 10 → c2 < 10 → c1 ≠ c2 →
      verhoeffFold ds i c1 ≠ verhoeffFold ds i c2 := by
  induction ds with
  | nil => intro i c1 c2 _ _ hne; simpa [verhoeffFold] using hne
  | cons d rest ih =>
    intro i c1 c2 h1 h2 hne
    have hd : d < 10 := hds d (by simp)
    have hrest : ∀ x ∈ rest, x < 10 := fun x hx => hds x (by simp [hx])
    have hp : pT (i % 8) d < 10 := pT_lt (Nat.mod_lt i (by omega)) hd
    simp only [verhoeffFold]
    exact ih hrest (i + 1) _ _ (dT_lt h1 hp) (dT_lt h2 hp)
      (dT_right_inj hp h1 h2 hne)

/-- The fold commutes with left multiplication (a consequence of
associativity). -/
theorem verhoeffFold_hom {ds : List Nat} (hds : ∀ d ∈ ds, d < 10) :
    ∀ i a b, a < 10 → b < 10 →
      verhoeffFold ds i (dT a b) = dT a (verhoeffFold ds i b) := by
  induction ds with
  | nil => intro i a b _ _; rfl
  | cons d rest ih =>
    intro i a b ha hb
    have hd : d < 10 := hds d (by simp)
    have hrest : ∀ x ∈ rest, x < 10 := fun x hx => hds x (by simp [hx])
    have hp : pT (i % 8) d < 10 := pT_lt (Nat.mod_lt i (by omega)) hd
    simp only [verhoeffFold]
    rw [dT_assoc ha hb hp]
    exact ih hrest (i + 1) a (dT b (pT (i % 8) d)) ha (dT_lt hb hp)

/-- A digit list followed by its computed check digit folds to accumulator 0
under the validation row offsets: this is the off-by-one consistency between
`calculate_checksum` (fold start 1) and `validate` (fold start 0). -/
theorem verhoeffFold_check {l : List Nat} (hl : ∀ d ∈ l, d < 10) :
    verhoeffFold (invT (verhoeffFold l 1 0) :: l) 0 0 = 0 := by
  have hC : verhoeffFold l 1 0 < 10 := verhoeffFold_lt hl 1 0 (by omega)
  have hchk : invT (verhoeffFold l 1 0) < 10 := invT_lt hC
  simp only [verhoeffFold]
  rw [Nat.zero_mod, pT_zero hchk, dT_zero_left hchk]
  calc verhoeffFold l 1 (invT (verhoeffFold l 1 0))
      = verhoeffFold l 1 (dT (invT (verhoeffFold l 1 0)) 0) := by
        rw [dT_zero_right hchk]
    _ = dT (invT (verhoeffFold l 1 0)) (verhoeffFold l 1 0) := by
        rw [verhoeffFold_hom hl 1 _ 0 hchk (by omega)]
    _ = 0 := invT_dT hC

/-- Substituting one digit always changes the fold result. -/
theorem verhoeffFold_substitution {x y : Nat} (hx : x < 10) (hy : y < 10)
    (hxy : x ≠ y) :
    ∀ l1 l2 : List Nat, (∀ d ∈ l1, d < 10) → (∀ d ∈ l2, d < 10) →
    ∀ i c, c < 10 →
      verhoeffFold (l1 ++ x :: l2) i c ≠ verhoeffFold (l1 ++ y :: l2) i c := by
  intro l1
  induction l1 with
  | nil =>
    intro l2 _ hl2 i c hc
    simp only [List.nil_append, verhoeffFold]
    have hr : i % 8 < 8 := Nat.mod_lt i (by omega)
    exact verhoeffFold_inj hl2 (i + 1) _ _
      (dT_lt hc (pT_lt hr hx)) (dT_lt hc (pT_lt hr hy))
      (dT_left_inj hc (pT_lt hr hx) (pT_lt hr hy) (pT_inj hr hx hy hxy))
  | cons d rest ih =>
    intro l2 hl1 hl2 i c hc
    have hd : d < 10 := hl1 d (by simp)
    have hrest : ∀ e ∈ rest, e < 10 := fun e he => hl1 e (by simp [he])
    have hr : i % 8 < 8 := Nat.mod_lt i (by omega)
    simp only [List.cons_append, verhoeffFold]
    exact ih l2 hrest hl2 (i + 1) _ (dT_lt hc (pT_lt hr hd))

/-- Swapping two distinct adjacent digits always changes the fold result. -/
theorem verhoeffFold_transposition_swap {a b : Nat} (ha : a < 10) (hb : b < 10)
    (hab : a ≠ b) :
    ∀ l1 l2 : List Nat, (∀ d ∈ l1, d < 10) → (∀ d ∈ l2, d < 10) →
    ∀ i c, c < 10 →
      verhoeffFold (l1 ++ a :: b :: l2) i c
        ≠ verhoeffFold (l1 ++ b :: a :: l2) i c := by
  intro l1
  induction l1 with
  | nil =>
    intro l2 _ hl2 i c hc
    simp only [List.nil_append, verhoeffFold]
    have hr : i % 8 < 8 := Nat.mod_lt i (by omega)
    have hr1 : (i + 1) % 8 < 8 := Nat.mod_lt (i + 1) (by omega)
    have hmod : (i + 1) % 8 = (i % 8 + 1) % 8 := by omega
    rw [hmod]
    refine verhoeffFold_inj hl2 (i + 1 + 1) _ _ ?_ ?_ ?_
    · exact dT_lt (dT_lt hc (pT_lt hr ha)) (pT_lt (by omega) hb)
    · exact dT_lt (dT_lt hc (pT_lt hr hb)) (pT_lt (by omega) ha)
    · exact dT_transposition hc hr ha hb hab
  | cons d rest ih =>
    intro l2 hl1 hl2 i c hc
    have hd : d < 10 := hl1 d (by simp)
    have hrest : ∀ e ∈ rest, e < 10 := fun e he => hl1 e (by simp [he])
    have hr : i % 8 < 8 := Nat.mod_lt i (by omega)
    simp only [List.cons_append, verhoeffFold]
    exact ih l2 hrest hl2 (i + 1) _ (dT_lt hc (pT_lt hr hd))

end Matter

namespace Matter

/-! ## Digit strings -/

/-- Reading back a digit character. -/
theorem charToDigit_ofNat {d : Nat} (hd : d < 10) :
    charToDigit (Char.ofNat (48 + d)) = some d := by
  have H : ∀ d : Fin 10, charToDigit (Char.ofNat (48 + d.val)) = some d.val := by decide
  exact H ⟨d, hd⟩

/-- Digit extraction succeeds on rendered digit lists. -/
theorem stringToDigitsGo_map {ds : List Nat} (hds : ∀ d ∈ ds, d < 10) :
    stringToDigitsGo (ds.map fun d => Char.ofNat (48 + d)) = .ok ds := by
  induction ds with
  | nil => rfl
  | cons d rest ih =>
    have hd : d < 10 := hds d (by simp)
    have hrest : ∀ e ∈ rest, e < 10 := fun e he => hds e (by simp [he])
    simp only [List.map_cons, stringToDigitsGo, charToDigit_ofNat hd, ih hrest]

/-- `string_to_digits` inverts `digitsToString` on nonempty digit lists. -/
theorem string_to_digits_digitsToString {ds : List Nat} (hne : ds ≠ [])
    (hds : ∀ d ∈ ds, d < 10) :
    string_to_digits (digitsToString ds) = .ok ds := by
  unfold string_to_digits digitsToString
  rw [if_neg (by simp [hne]), stringToDigitsGo_map hds]

/-- Digit extraction distributes over appending. -/
theorem stringToDigitsGo_append {l1 l2 : List Char} {d1 d2 : List Nat}
    (h1 : stringToDigitsGo l1 = .ok d1) (h2 : stringToDigitsGo l2 = .ok d2) :
    stringToDigitsGo (l1 ++ l2) = .ok (d1 ++ d2) := by
  induction l1 generalizing d1 with
  | nil =>
    simp only [stringToDigitsGo, Except.ok.injEq] at h1
    subst h1
    simpa using h2
  | cons c rest ih =>
    simp only [stringToDigitsGo] at h1
    cases hc : charToDigit c with
    | none => rw [hc] at h1; exact absurd h1 (by simp)
    | some d =>
      rw [hc] at h1
      cases hr : stringToDigitsGo rest with
      | error e => rw [hr] at h1; exact absurd h1 (by simp)
      | ok ds =>
        rw [hr] at h1
        simp only [Except.ok.injEq] at h1
        subst h1
        simp only [List.cons_append, stringToDigitsGo, hc, List.append_eq, ih hr]

/-- Every digit extracted by `string_to_digits` is below 10. -/
theorem stringToDigitsGo_bound : ∀ {cs : List Char} {ds : List Nat},
    stringToDigitsGo cs = .ok ds → ∀ d ∈ ds, d < 10 := by
  intro cs
  induction cs with
  | nil =>
    intro ds h
    simp only [stringToDigitsGo, Except.ok.injEq] at h
    subst h
    simp
  | cons c rest ih =>
    intro ds h
    simp only [stringToDigitsGo] at h
    cases hc : charToDigit c with
    | none => rw [hc] at h; exact absurd h (by simp)
    | some d =>
      rw [hc] at h
      cases hr : stringToDigitsGo rest with
      | error e => rw [hr] at h; exact absurd h (by simp)
      | ok ds2 =>
        rw [hr] at h
        simp only [Except.ok.injEq] at h
        subst h
        intro e he
        rcases List.mem_cons.mp he with rfl | he2
        · unfold charToDigit at hc
          by_cases hd : 48 ≤ c.toNat ∧ c.toNat ≤ 57
          · rw [if_pos hd] at hc
            simp only [Option.some.injEq] at hc
            omega
          · rw [if_neg hd] at hc
            exact absurd hc (by simp)
        · exact ih hr e he2

/-- `string_to_digits` success unfolds to the recursion on the char list. -/
theorem string_to_digits_ok {s : String} {ds : List Nat}
    (h : string_to_digits s = .ok ds) :
    stringToDigitsGo s.data = .ok ds ∧ s.data ≠ [] := by
  unfold string_to_digits at h
  by_cases he : s.data.isEmpty
  · rw [if_pos he] at h
    exact absurd h (by simp)
  · rw [if_neg he] at h
    exact ⟨h, by simpa [List.isEmpty_iff] using he⟩

/-- Every digit of a successfully digit-parsed string is below 10. -/
theorem string_to_digits_bound {s : String} {ds : List Nat}
    (h : string_to_digits s = .ok ds) : ∀ d ∈ ds, d < 10 :=
  stringToDigitsGo_bound (string_to_digits_ok h).1

/-- One-digit rendering. -/
theorem natDecChars_single {n : Nat} (h : n < 10) :
    natDecChars n = [Char.ofNat (48 + n)] := by
  simp only [natDecChars, natDecCharsAux, if_pos h]

/-- `append_checksum` on a digit string appends the rendered check digit. -/
theorem append_checksum_eq {s : String} {ds : List Nat}
    (hds : string_to_digits s = .ok ds) :
    append_checksum s
      = .ok (s ++ natDecString (invT (verhoeffFold ds.reverse 1 0))) := by
  unfold append_checksum calculate_checksum
  rw [hds]

/-- Digit parsing of a digit string extended by one rendered check digit. -/
theorem string_to_digits_append_digit {s : String} {ds : List Nat} {k : Nat}
    (hds : string_to_digits s = .ok ds) (hk : k < 10) :
    string_to_digits (s ++ natDecString k) = .ok (ds ++ [k]) := by
  obtain ⟨hgo, hne⟩ := string_to_digits_ok hds
  have hone : stringToDigitsGo (natDecString k).data = .ok [k] := by
    have : (natDecString k).data = [Char.ofNat (48 + k)] := by
      simp [natDecString, natDecChars_single hk]
    rw [this]
    simp only [stringToDigitsGo, charToDigit_ofNat hk]
  unfold string_to_digits
  rw [String.data_append]
  rw [if_neg (by simp [hne])]
  exact stringToDigitsGo_append hgo hone

/-! ## Claims C3 and C4 -/

/-- Claim C4: appending the check digit produced by `calculate_checksum`
(row index `(i + 1) % 8`) to any nonempty decimal digit string yields a
string accepted by `validate` (row index `i % 8`), the final accumulator
being exactly 0. -/
theorem c4_validate_append (s t : String) (ds : List Nat)
    (hds : string_to_digits s = .ok ds) (ht : append_checksum s = .ok t) :
    validate t = .ok true ∧
    ∃ ds2, string_to_digits t = .ok ds2 ∧ verhoeffFold ds2.reverse 0 0 = 0 := by
  have hbound := string_to_digits_bound hds
  have hrevbound : ∀ d ∈ ds.reverse, d < 10 := by
    intro d hd
    exact hbound d (List.mem_reverse.mp hd)
  have hC : verhoeffFold ds.reverse 1 0 < 10 :=
    verhoeffFold_lt hrevbound 1 0 (by omega)
  have hchk : invT (verhoeffFold ds.reverse 1 0) < 10 := invT_lt hC
  rw [append_checksum_eq hds] at ht
  simp only [Except.ok.injEq] at ht
  subst ht
  have hds2 : string_to_digits (s ++ natDecString (invT (verhoeffFold ds.reverse 1 0)))
      = .ok (ds ++ [invT (verhoeffFold ds.reverse 1 0)]) :=
    string_to_digits_append_digit hds hchk
  have hfold : verhoeffFold (ds ++ [invT (verhoeffFold ds.reverse 1 0)]).reverse 0 0 = 0 := by
    have hrw : (ds ++ [invT (verhoeffFold ds.reverse 1 0)]).reverse
        = invT (verhoeffFold ds.reverse 1 0) :: ds.reverse := by simp
    rw [hrw]
    exact verhoeffFold_check hrevbound
  refine ⟨?_, ds ++ [invT (verhoeffFold ds.reverse 1 0)], hds2, hfold⟩
  unfold validate
  rw [hds2]
  show Except.ok
    (verhoeffFold (ds ++ [invT (verhoeffFold ds.reverse 1 0)]).reverse 0 0 == 0)
      = Except.ok true
  rw [hfold]
  rfl

/-- The concrete instance of claim C4 at the digit string "236". -/
theorem c4_validate_append_witness : validate "2363" = .ok true :=
  (c4_validate_append "236" "2363" [2, 3, 6] (by decide) (by decide)).1

/-- Claim C3: on any digit string extended by its computed check digit,
substituting any single digit by a different digit, or swapping two distinct
adjacent digits, makes `validate` return false. -/
theorem c3_error_detection (s : String) (ds : List Nat) (chk : Nat)
    (hds : string_to_digits s = .ok ds)
    (hchk : calculate_checksum s = .ok chk) :
    (∀ u x v y, ds ++ [chk] = u ++ x :: v → y < 10 → y ≠ x →
      validate (digitsToString (u ++ y :: v)) = .ok false) ∧
    (∀ u a b v, ds ++ [chk] = u ++ a :: b :: v → a ≠ b →
      validate (digitsToString (u ++ b :: a :: v)) = .ok false) := by
  have hbound := string_to_digits_bound hds
  have hrevbound : ∀ d ∈ ds.reverse, d < 10 := fun d hd =>
    hbound d (List.mem_reverse.mp hd)
  have hchkval : chk = invT (verhoeffFold ds.reverse 1 0) := by
    unfold calculate_checksum at hchk
    rw [hds] at hchk
    simp only [Except.ok.injEq] at hchk
    exact hchk.symm
  have hchk10 : chk < 10 := by
    rw [hchkval]
    exact invT_lt (verhoeffFold_lt hrevbound 1 0 (by omega))
  have hfull : ∀ d ∈ ds ++ [chk], d < 10 := by
    intro d hd
    rcases List.mem_append.mp hd with h | h
    · exact hbound d h
    · simp only [List.mem_singleton] at h
      omega
  have hzero : verhoeffFold (ds ++ [chk]).reverse 0 0 = 0 := by
    have hrw : (ds ++ [chk]).reverse = chk :: ds.reverse := by simp
    rw [hrw, hchkval]
    exact verhoeffFold_check hrevbound
  constructor
  · intro u x v y hdec hy hyx
    have hu : ∀ d ∈ u, d < 10 := fun d hd =>
      hfull d (hdec ▸ List.mem_append_left _ hd)
    have hv : ∀ d ∈ v, d < 10 := fun d hd =>
      hfull d (hdec ▸ List.mem_append_right _ (List.mem_cons_of_mem _ hd))
    have hx : x < 10 := hfull x (hdec ▸ List.mem_append_right _ (List.mem_cons_self _ _))
    have hurev : ∀ d ∈ u.reverse, d < 10 := fun d hd => hu d (List.mem_reverse.mp hd)
    have hvrev : ∀ d ∈ v.reverse, d < 10 := fun d hd => hv d (List.mem_reverse.mp hd)
    have hne : verhoeffFold (v.reverse ++ x :: u.reverse) 0 0
        ≠ verhoeffFold (v.reverse ++ y :: u.reverse) 0 0 :=
      verhoeffFold_substitution hx hy (fun he => hyx he.symm)
        v.reverse u.reverse hvrev hurev 0 0 (by omega)
    have horig : verhoeffFold (v.reverse ++ x :: u.reverse) 0 0 = 0 := by
      have : (u ++ x :: v).reverse = v.reverse ++ x :: u.reverse := by simp
      rw [← this, ← hdec]
      exact hzero
    have hmodrev : (u ++ y :: v).reverse = v.reverse ++ y :: u.reverse := by simp
    have hmodbound : ∀ d ∈ u ++ y :: v, d < 10 := by
      intro d hd
      rcases List.mem_append.mp hd with h | h
      · exact hu d h
      · rcases List.mem_cons.mp h with rfl | h
        · exact hy
        · exact hv d h
    unfold validate
    rw [string_to_digits_digitsToString (by simp) hmodbound]
    show Except.ok (verhoeffFold (u ++ y :: v).reverse 0 0 == 0) = Except.ok false
    rw [hmodrev]
    have hne0 : verhoeffFold (v.reverse ++ y :: u.reverse) 0 0 ≠ 0 :=
      fun he => hne (horig.trans he.symm)
    rw [beq_eq_false_iff_ne.mpr hne0]
  · intro u a b v hdec hab
    have hu : ∀ d ∈ u, d < 10 := fun d hd =>
      hfull d (hdec ▸ List.mem_append_left _ hd)
    have ha : a < 10 := hfull a (hdec ▸ List.mem_append_right _ (List.mem_cons_self _ _))
    have hb : b < 10 := hfull b
      (hdec ▸ List.mem_append_right _ (List.mem_cons_of_mem _ (List.mem_cons_self _ _)))
    have hv : ∀ d ∈ v, d < 10 := fun d hd =>
      hfull d (hdec ▸ List.mem_append_right _
        (List.mem_cons_of_mem _ (List.mem_cons_of_mem _ hd)))
    have hurev : ∀ d ∈ u.reverse, d < 10 := fun d hd => hu d (List.mem_reverse.mp hd)
    have hvrev : ∀ d ∈ v.reverse, d < 10 := fun d hd => hv d (List.mem_reverse.mp hd)
    have hne : verhoeffFold (v.reverse ++ b :: a :: u.reverse) 0 0
        ≠ verhoeffFold (v.reverse ++ a :: b :: u.reverse) 0 0 :=
      verhoeffFold_transposition_swap hb ha (fun he => hab he.symm)
        v.reverse u.reverse hvrev hurev 0 0 (by omega)
    have horig : verhoeffFold (v.reverse ++ b :: a :: u.reverse) 0 0 = 0 := by
      have : (u ++ a :: b :: v).reverse = v.reverse ++ b :: a :: u.reverse := by simp
      rw [← this, ← hdec]
      exact hzero
    have hmodrev : (u ++ b :: a :: v).reverse = v.reverse ++ a :: b :: u.reverse := by simp
    have hmodbound : ∀ d ∈ u ++ b :: a :: v, d < 10 := by
      intro d hd
      rcases List.mem_append.mp hd with h | h
      · exact hu d h
      · rcases List.mem_cons.mp h with rfl | h
        · exact hb
        · rcases List.mem_cons.mp h with rfl | h
          · exact ha
          · exact hv d h
    unfold validate
    rw [string_to_digits_digitsToString (by simp) hmodbound]
    show Except.ok (verhoeffFold (u ++ b :: a :: v).reverse 0 0 == 0) = Except.ok false
    rw [hmodrev]
    have hne0 : verhoeffFold (v.reverse ++ a :: b :: u.reverse) 0 0 ≠ 0 :=
      fun he => hne (horig.trans he.symm)
    rw [beq_eq_false_iff_ne.mpr hne0]

/-- The concrete instance of claim C3 at the digit string "236": substituting
the leading digit 2 by 1 in "2363" is detected. -/
theorem c3_error_detection_witness :
    validate (digitsToString ([] ++ 1 :: [3, 6, 3])) = .ok false :=
  (c3_error_detection "236" [2, 3, 6] 3 (by decide) (by decide)).1
    [] 2 [3, 6, 3] 1 (by decide) (by decide) (by decide)

end Matter

namespace Matter

/-! ## Bitwise arithmetic bridges -/

/-- Disjoint bitwise or is addition: variant of `Nat.mul_add_lt_is_or`. -/
theorem lor_disjoint {a : Nat} (x k : Nat) (ha : a < 2 ^ k) :
    a ||| (x <<< k) = x * 2 ^ k + a := by
  rw [Nat.shiftLeft_eq, Nat.lor_comm, Nat.mul_comm x (2 ^ k)]
  exact (Nat.mul_add_lt_is_or ha x).symm

/-- Masking with `0xFF` is reduction modulo 256. -/
theorem and_255 (v : Nat) : v &&& 255 = v % 256 := by
  have h := Nat.and_pow_two_sub_one_eq_mod v 8
  norm_num at h
  exact h

/-- Shifting right by 8 is division by 256. -/
theorem shr_8 (v : Nat) : v >>> 8 = v / 256 := by
  rw [Nat.shiftRight_eq_div_pow]

/-! ## Base38 round trip -/

/-- The chunk packer on one byte. -/
theorem packChunk1 (a : Nat) : packChunk [a] 0 0 = a := by
  simp [packChunk]

/-- The chunk packer on two bytes. -/
theorem packChunk2 {a : Nat} (b : Nat) (ha : a < 256) :
    packChunk [a, b] 0 0 = b * 256 + a := by
  have h8 : (2 : Nat) ^ 8 = 256 := by norm_num
  have h := lor_disjoint (a := a) b 8 (by omega)
  show (0 ||| a <<< (0 * 8)) ||| b <<< (1 * 8) = b * 256 + a
  simp only [Nat.zero_mul, Nat.one_mul, Nat.shiftLeft_zero, Nat.zero_or]
  omega

/-- The chunk packer on three bytes. -/
theorem packChunk3 {a b : Nat} (c : Nat) (ha : a < 256) (hb : b < 256) :
    packChunk [a, b, c] 0 0 = c * 65536 + b * 256 + a := by
  have h8 : (2 : Nat) ^ 8 = 256 := by norm_num
  have h16 : (2 : Nat) ^ 16 = 65536 := by norm_num
  have h1 := lor_disjoint (a := a) b 8 (by omega)
  have h2 := lor_disjoint (a := b * 2 ^ 8 + a) c 16 (by omega)
  show ((0 ||| a <<< (0 * 8)) ||| b <<< (1 * 8)) ||| c <<< (2 * 8)
    = c * 65536 + b * 256 + a
  simp only [Nat.zero_mul, Nat.one_mul, Nat.shiftLeft_zero, Nat.zero_or]
  rw [show (2 * 8 : Nat) = 16 from rfl, h1, h2]
  omega

/-- The emission loop produces the requested number of symbols. -/
theorem emitChars_length (v n : Nat) : (emitChars v n).length = n := by
  induction n generalizing v with
  | zero => rfl
  | succ n ih => simp [emitChars, ih]

/-- Alphabet lookup inverts alphabet indexing. -/
theorem charIndex_codes {d : Nat} (hd : d < 38) :
    charIndex (CODES.getD d '0') = some d := by
  have H : ∀ d : Fin 38, charIndex (CODES.getD d.val '0') = some d.val := by decide
  exact H ⟨d, hd⟩

/-- A successful partial fold extends over an appended suffix. -/
theorem chunkValue_append_ok {l1 : List Char} :
    ∀ {acc m : Nat}, chunkValue l1 acc = .ok m → ∀ l2 : List Char,
      chunkValue (l1 ++ l2) acc = chunkValue l2 m := by
  induction l1 with
  | nil =>
    intro acc m h l2
    simp only [chunkValue, Except.ok.injEq] at h
    subst h
    rfl
  | cons c rest ih =>
    intro acc m h l2
    simp only [chunkValue] at h ⊢
    cases hc : charIndex c with
    | none => rw [hc] at h; exact absurd h (by simp)
    | some v =>
      rw [hc] at h
      simp only [List.cons_append, chunkValue, hc]
      exact ih h l2

/-- Folding the reversed emission recovers the emitted value. -/
theorem chunkValue_emit : ∀ (n v acc : Nat), v < 38 ^ n →
    chunkValue (emitChars v n).reverse acc = .ok (acc * 38 ^ n + v) := by
  intro n
  induction n with
  | zero =>
    intro v acc hv
    simp only [emitChars, List.reverse_nil, chunkValue, Except.ok.injEq]
    omega
  | succ n ih =>
    intro v acc hv
    have hdiv : v / 38 < 38 ^ n := by
      rw [Nat.div_lt_iff_lt_mul (by norm_num)]
      calc v < 38 ^ (n + 1) := hv
        _ = 38 ^ n * 38 := by rw [Nat.pow_succ]
    have hmod : v % 38 < 38 := Nat.mod_lt v (by norm_num)
    have hR : RADIX = 38 := rfl
    simp only [emitChars, List.reverse_cons, hR]
    rw [chunkValue_append_ok (ih (v / 38) acc hdiv)]
    simp only [chunkValue, charIndex_codes hmod]
    have harith : (acc * 38 ^ n + v / 38) * 38 + v % 38
        = acc * 38 ^ (n + 1) + v := by
      have hdm : 38 * (v / 38) + v % 38 = v := Nat.div_add_mod v 38
      have hmul : (acc * 38 ^ n + v / 38) * 38
          = acc * 38 ^ (n + 1) + v / 38 * 38 := by ring
      omega
    rw [hR, harith]

/-- Decoding the 2-symbol emission of one byte. -/
theorem decodeChunk_emit2 {a : Nat} (ha : a < 256) :
    decodeChunk (emitChars a 2) = .ok [a] := by
  unfold decodeChunk
  rw [chunkValue_emit 2 a 0 (by norm_num; omega)]
  show decodeChunk.decodeChunkBytes (0 * 38 ^ 2 + a) (emitChars a 2).length 1 = _
  rw [emitChars_length]
  unfold decodeChunk.decodeChunkBytes
  rw [if_neg (by norm_num [Nat.shiftLeft_eq]; omega)]
  simp only [unpackChunk, and_255, Except.ok.injEq, List.cons.injEq, and_true]
  omega

/-- Decoding the 4-symbol emission of two bytes. -/
theorem decodeChunk_emit4 {a b : Nat} (ha : a < 256) (hb : b < 256) :
    decodeChunk (emitChars (b * 256 + a) 4) = .ok [a, b] := by
  unfold decodeChunk
  rw [chunkValue_emit 4 (b * 256 + a) 0 (by norm_num; omega)]
  show decodeChunk.decodeChunkBytes (0 * 38 ^ 4 + (b * 256 + a))
    (emitChars (b * 256 + a) 4).length 2 = _
  rw [emitChars_length]
  unfold decodeChunk.decodeChunkBytes
  rw [if_neg (by norm_num [Nat.shiftLeft_eq]; omega)]
  simp only [unpackChunk, and_255, shr_8, Except.ok.injEq, List.cons.injEq,
    and_true]
  omega

/-- Decoding the 5-symbol emission of three bytes. -/
theorem decodeChunk_emit5 {a b c : Nat} (ha : a < 256) (hb : b < 256)
    (hc : c < 256) :
    decodeChunk (emitChars (c * 65536 + b * 256 + a) 5) = .ok [a, b, c] := by
  unfold decodeChunk
  rw [chunkValue_emit 5 (c * 65536 + b * 256 + a) 0 (by norm_num; omega)]
  show decodeChunk.decodeChunkBytes (0 * 38 ^ 5 + (c * 65536 + b * 256 + a))
    (emitChars (c * 65536 + b * 256 + a) 5).length 3 = _
  rw [emitChars_length]
  unfold decodeChunk.decodeChunkBytes
  rw [if_neg (by norm_num [Nat.shiftLeft_eq]; omega)]
  simp only [unpackChunk, and_255, shr_8, Except.ok.injEq, List.cons.injEq,
    and_true]
  refine ⟨by omega, by omega, by omega⟩

/-- `decode` on a 2-symbol list is the single chunk decode. -/
theorem decode_emit2 (v : Nat) :
    decode (emitChars v 2) = decodeChunk (emitChars v 2) := rfl

/-- `decode` on a 4-symbol list is the single chunk decode. -/
theorem decode_emit4 (v : Nat) :
    decode (emitChars v 4) = decodeChunk (emitChars v 4) := rfl

/-- `decode` splits a 5-symbol emission off the front of the input. -/
theorem decode_emit5_append (v : Nat) (rest : List Char) :
    decode (emitChars v 5 ++ rest) =
      match decodeChunk (emitChars v 5) with
      | .error e => .error e
      | .ok bytes =>
        match decode rest with
        | .error e => .error e
        | .ok more => .ok (bytes ++ more) := rfl

/-- Claim C2: Base38 decoding inverts Base38 encoding on every byte
sequence, including the empty one. -/
theorem c2_base38_round_trip : ∀ bytes : List Nat, (∀ b ∈ bytes, b < 256) →
    decode (encode bytes) = .ok bytes
  | [], _ => rfl
  | [a], h => by
    have ha : a < 256 := h a (by simp)
    show decode (emitChars (packChunk [a] 0 0) 2) = .ok [a]
    rw [packChunk1, decode_emit2, decodeChunk_emit2 ha]
  | [a, b], h => by
    have ha : a < 256 := h a (by simp)
    have hb : b < 256 := h b (by simp)
    show decode (emitChars (packChunk [a, b] 0 0) 4) = .ok [a, b]
    rw [packChunk2 b ha, decode_emit4, decodeChunk_emit4 ha hb]
  | a :: b :: c :: rest, h => by
    have ha : a < 256 := h a (by simp)
    have hb : b < 256 := h b (by simp)
    have hc : c < 256 := h c (by simp)
    have ih := c2_base38_round_trip rest (fun x hx => h x (by simp [hx]))
    show decode (emitChars (packChunk [a, b, c] 0 0) 5 ++ encode rest)
      = .ok (a :: b :: c :: rest)
    rw [packChunk3 c ha hb, decode_emit5_append,
      decodeChunk_emit5 ha hb hc, ih]
    rfl

/-- The concrete instance of claim C2 at the byte sequence
`[0x12, 0x34, 0x56, 0x78]`. -/
theorem c2_base38_round_trip_witness :
    decode (encode [18, 52, 86, 120]) = .ok [18, 52, 86, 120] :=
  c2_base38_round_trip [18, 52, 86, 120] (by decide)

end Matter

namespace Matter

/-! ## Bit-level machinery for the layout codec -/

/-- A field write emits exactly `w` bits. -/
theorem fieldBits_length (v w : Nat) : (fieldBits v w).length = w := by
  simp [fieldBits]

/-- Field writes emit only bits. -/
theorem fieldBits_le_one {v w : Nat} : ∀ b ∈ fieldBits v w, b ≤ 1 := by
  intro b hb
  simp only [fieldBits, List.mem_map] at hb
  obtain ⟨i, -, rfl⟩ := hb
  exact Nat.and_le_right

/-- Byte expansion emits only bits. -/
theorem byteBits_le_one {byte : Nat} : ∀ b ∈ byteBits byte, b ≤ 1 := by
  intro b hb
  simp only [byteBits, List.mem_map] at hb
  obtain ⟨i, -, rfl⟩ := hb
  exact Nat.and_le_right

/-- The big-endian bit fold is bounded by the corresponding power of two. -/
theorem bitsVal_foldl_lt : ∀ (l : List Nat) (acc : Nat), (∀ b ∈ l, b ≤ 1) →
    l.foldl (fun acc b => 2 * acc + b) acc < (acc + 1) * 2 ^ l.length := by
  intro l
  induction l with
  | nil => intro acc _; simp
  | cons b rest ih =>
    intro acc h
    have hb : b ≤ 1 := h b (by simp)
    have hrest : ∀ x ∈ rest, x ≤ 1 := fun x hx => h x (by simp [hx])
    simp only [List.foldl_cons, List.length_cons]
    have hih := ih (2 * acc + b) hrest
    have hpow : (2 * acc + b + 1) * 2 ^ rest.length
        ≤ ((acc + 1) * 2) * 2 ^ rest.length :=
      Nat.mul_le_mul_right _ (by omega)
    have heq : ((acc + 1) * 2) * 2 ^ rest.length
        = (acc + 1) * 2 ^ (rest.length + 1) := by
      rw [pow_succ]
      ring
    omega

/-- Bit lists denote values below `2 ^ length`. -/
theorem bitsVal_lt {l : List Nat} (h : ∀ b ∈ l, b ≤ 1) :
    bitsVal l < 2 ^ l.length := by
  have := bitsVal_foldl_lt l 0 h
  simpa [bitsVal] using this

/-- On genuine bit lists of at most 64 entries the wrapped `u64` fold of the
source agrees with the plain big-endian fold. -/
theorem bits_to_u64_foldl_eq : ∀ (l : List Nat) (acc : Nat), (∀ b ∈ l, b ≤ 1) →
    l.length ≤ 64 → acc < 2 ^ (64 - l.length) →
    l.foldl (fun acc bit => (acc <<< 1) % 2 ^ 64 ||| (bit &&& 1)) acc
      = l.foldl (fun acc b => 2 * acc + b) acc := by
  intro l
  induction l with
  | nil => intro acc _ _ _; rfl
  | cons b rest ih =>
    intro acc h hlen hacc
    have hb : b ≤ 1 := h b (by simp)
    have hrest : ∀ x ∈ rest, x ≤ 1 := fun x hx => h x (by simp [hx])
    simp only [List.length_cons] at hlen hacc
    have hpows : 2 ^ (64 - (rest.length + 1)) * 2 = 2 ^ (64 - rest.length) := by
      rw [← pow_succ]
      congr 1
      omega
    have hpow64 : 2 ^ (64 - rest.length) ≤ 2 ^ 64 :=
      Nat.pow_le_pow_right (by omega) (by omega)
    simp only [List.foldl_cons]
    have hstep : (acc <<< 1) % 2 ^ 64 ||| (b &&& 1) = 2 * acc + b := by
      have hlt : acc * 2 < 2 ^ 64 := by omega
      rw [Nat.shiftLeft_eq, pow_one, Nat.mod_eq_of_lt hlt]
      have hb1 : b &&& 1 = b := by
        rw [Nat.and_one_is_mod]
        omega
      rw [hb1, Nat.lor_comm]
      have hd := lor_disjoint (a := b) acc 1 (by omega)
      rw [Nat.shiftLeft_eq, pow_one] at hd
      rw [hd]
      ring
    rw [hstep]
    exact ih (2 * acc + b) hrest (by omega) (by omega)

/-- `bits_to_u64_be` agrees with `bitsVal` on bit lists of at most 64
entries. -/
theorem bits_to_u64_be_eq {l : List Nat} (h : ∀ b ∈ l, b ≤ 1)
    (hlen : l.length ≤ 64) : bits_to_u64_be l = bitsVal l := by
  unfold bits_to_u64_be bitsVal
  exact bits_to_u64_foldl_eq l 0 h hlen (Nat.pos_pow_of_pos _ (by omega))

/-- Trailing zero bits do not change the packed byte. -/
theorem packByte_append_zero : ∀ (l : List Nat) (i acc : Nat),
    packByte (l ++ [0]) i acc = packByte l i acc := by
  intro l
  induction l with
  | nil => intro i acc; simp [packByte]
  | cons b rest ih =>
    intro i acc
    simp only [List.cons_append, packByte]
    exact ih _ _

/-- Trailing zero bits do not change the packed byte. -/
theorem packByte_append_zeros : ∀ (k : Nat) (l : List Nat) (i acc : Nat),
    packByte (l ++ List.replicate k 0) i acc = packByte l i acc := by
  intro k
  induction k with
  | zero => intro l i acc; simp
  | succ k ih =>
    intro l i acc
    rw [List.replicate_succ' k (0 : Nat), ← List.append_assoc,
      packByte_append_zero, ih]

/-- Expanding a packed byte recovers its 8 bits. -/
theorem byteBits_packByte8 {b0 b1 b2 b3 b4 b5 b6 b7 : Nat}
    (h0 : b0 ≤ 1) (h1 : b1 ≤ 1) (h2 : b2 ≤ 1) (h3 : b3 ≤ 1) (h4 : b4 ≤ 1)
    (h5 : b5 ≤ 1) (h6 : b6 ≤ 1) (h7 : b7 ≤ 1) :
    byteBits (packByte [b0, b1, b2, b3, b4, b5, b6, b7] 0 0)
      = [b0, b1, b2, b3, b4, b5, b6, b7] := by
  have H : ∀ x0 x1 x2 x3 x4 x5 x6 x7 : Fin 2,
      byteBits (packByte [x0.val, x1.val, x2.val, x3.val, x4.val, x5.val,
          x6.val, x7.val] 0 0)
        = [x0.val, x1.val, x2.val, x3.val, x4.val, x5.val, x6.val, x7.val] := by
    decide
  exact H ⟨b0, by omega⟩ ⟨b1, by omega⟩ ⟨b2, by omega⟩ ⟨b3, by omega⟩
    ⟨b4, by omega⟩ ⟨b5, by omega⟩ ⟨b6, by omega⟩ ⟨b7, by omega⟩

/-- Packing a bit list into bytes and unpacking again appends the trailing
zero padding of the final partial byte. -/
theorem bits_bytes_round_trip : ∀ bits : List Nat, (∀ b ∈ bits, b ≤ 1) →
    bytes_to_bits_be (bits_to_bytes_be bits)
      = bits ++ List.replicate ((8 - bits.length % 8) % 8) 0
  | [], _ => rfl
  | b0 :: b1 :: b2 :: b3 :: b4 :: b5 :: b6 :: b7 :: rest, h => by
    have ih := bits_bytes_round_trip rest (fun x hx => h x (by simp [hx]))
    show byteBits (packByte [b0, b1, b2, b3, b4, b5, b6, b7] 0 0)
        ++ bytes_to_bits_be (bits_to_bytes_be rest) = _
    rw [byteBits_packByte8 (h b0 (by simp)) (h b1 (by simp)) (h b2 (by simp))
      (h b3 (by simp)) (h b4 (by simp)) (h b5 (by simp)) (h b6 (by simp))
      (h b7 (by simp)), ih]
    have hlen : (8 - (b0 :: b1 :: b2 :: b3 :: b4 :: b5 :: b6 :: b7
        :: rest).length % 8) % 8 = (8 - rest.length % 8) % 8 := by
      simp only [List.length_cons]
      omega
    rw [hlen]
    simp
  | [b0], h => by
    rw [show bits_to_bytes_be [b0] = [packByte [b0] 0 0] from rfl,
      show packByte [b0] 0 0 = packByte ([b0] ++ List.replicate 7 0) 0 0 from
        (packByte_append_zeros 7 [b0] 0 0).symm,
      show ([b0] ++ List.replicate 7 0 : List Nat) = [b0, 0, 0, 0, 0, 0, 0, 0]
        from rfl]
    show byteBits (packByte [b0, 0, 0, 0, 0, 0, 0, 0] 0 0) ++ [] = _
    rw [byteBits_packByte8 (h b0 (by simp)) (by omega) (by omega) (by omega)
      (by omega) (by omega) (by omega) (by omega)]
    rfl
  | [b0, b1], h => by
    rw [show bits_to_bytes_be [b0, b1] = [packByte [b0, b1] 0 0] from rfl,
      show packByte [b0, b1] 0 0
          = packByte ([b0, b1] ++ List.replicate 6 0) 0 0 from
        (packByte_append_zeros 6 [b0, b1] 0 0).symm,
      show ([b0, b1] ++ List.replicate 6 0 : List Nat)
          = [b0, b1, 0, 0, 0, 0, 0, 0] from rfl]
    show byteBits (packByte [b0, b1, 0, 0, 0, 0, 0, 0] 0 0) ++ [] = _
    rw [byteBits_packByte8 (h b0 (by simp)) (h b1 (by simp)) (by omega)
      (by omega) (by omega) (by omega) (by omega) (by omega)]
    rfl
  | [b0, b1, b2], h => by
    rw [show bits_to_bytes_be [b0, b1, b2] = [packByte [b0, b1, b2] 0 0]
        from rfl,
      show packByte [b0, b1, b2] 0 0
          = packByte ([b0, b1, b2] ++ List.replicate 5 0) 0 0 from
        (packByte_append_zeros 5 [b0, b1, b2] 0 0).symm,
      show ([b0, b1, b2] ++ List.replicate 5 0 : List Nat)
          = [b0, b1, b2, 0, 0, 0, 0, 0] from rfl]
    show byteBits (packByte [b0, b1, b2, 0, 0, 0, 0, 0] 0 0) ++ [] = _
    rw [byteBits_packByte8 (h b0 (by simp)) (h b1 (by simp)) (h b2 (by simp))
      (by omega) (by omega) (by omega) (by omega) (by omega)]
    rfl
  | [b0, b1, b2, b3], h => by
    rw [show bits_to_bytes_be [b0, b1, b2, b3]
          = [packByte [b0, b1, b2, b3] 0 0] from rfl,
      show packByte [b0, b1, b2, b3] 0 0
          = packByte ([b0, b1, b2, b3] ++ List.replicate 4 0) 0 0 from
        (packByte_append_zeros 4 [b0, b1, b2, b3] 0 0).symm,
      show ([b0, b1, b2, b3] ++ List.replicate 4 0 : List Nat)
          = [b0, b1, b2, b3, 0, 0, 0, 0] from rfl]
    show byteBits (packByte [b0, b1, b2, b3, 0, 0, 0, 0] 0 0) ++ [] = _
    rw [byteBits_packByte8 (h b0 (by simp)) (h b1 (by simp)) (h b2 (by simp))
      (h b3 (by simp)) (by omega) (by omega) (by omega) (by omega)]
    rfl
  | [b0, b1, b2, b3, b4], h => by
    rw [show bits_to_bytes_be [b0, b1, b2, b3, b4]
          = [packByte [b0, b1, b2, b3, b4] 0 0] from rfl,
      show packByte [b0, b1, b2, b3, b4] 0 0
          = packByte ([b0, b1, b2, b3, b4] ++ List.replicate 3 0) 0 0 from
        (packByte_append_zeros 3 [b0, b1, b2, b3, b4] 0 0).symm,
      show ([b0, b1, b2, b3, b4] ++ List.replicate 3 0 : List Nat)
          = [b0, b1, b2, b3, b4, 0, 0, 0] from rfl]
    show byteBits (packByte [b0, b1, b2, b3, b4, 0, 0, 0] 0 0) ++ [] = _
    rw [byteBits_packByte8 (h b0 (by simp)) (h b1 (by simp)) (h b2 (by simp))
      (h b3 (by simp)) (h b4 (by simp)) (by omega) (by omega) (by omega)]
    rfl
  | [b0, b1, b2, b3, b4, b5], h => by
    rw [show bits_to_bytes_be [b0, b1, b2, b3, b4, b5]
          = [packByte [b0, b1, b2, b3, b4, b5] 0 0] from rfl,
      show packByte [b0, b1, b2, b3, b4, b5] 0 0
          = packByte ([b0, b1, b2, b3, b4, b5] ++ List.replicate 2 0) 0 0 from
        (packByte_append_zeros 2 [b0, b1, b2, b3, b4, b5] 0 0).symm,
      show ([b0, b1, b2, b3, b4, b5] ++ List.replicate 2 0 : List Nat)
          = [b0, b1, b2, b3, b4, b5, 0, 0] from rfl]
    show byteBits (packByte [b0, b1, b2, b3, b4, b5, 0, 0] 0 0) ++ [] = _
    rw [byteBits_packByte8 (h b0 (by simp)) (h b1 (by simp)) (h b2 (by simp))
      (h b3 (by simp)) (h b4 (by simp)) (h b5 (by simp)) (by omega) (by omega)]
    rfl
  | [b0, b1, b2, b3, b4, b5, b6], h => by
    rw [show bits_to_bytes_be [b0, b1, b2, b3, b4, b5, b6]
          = [packByte [b0, b1, b2, b3, b4, b5, b6] 0 0] from rfl,
      show packByte [b0, b1, b2, b3, b4, b5, b6] 0 0
          = packByte ([b0, b1, b2, b3, b4, b5, b6] ++ List.replicate 1 0) 0 0
        from (packByte_append_zeros 1 [b0, b1, b2, b3, b4, b5, b6] 0 0).symm,
      show ([b0, b1, b2, b3, b4, b5, b6] ++ List.replicate 1 0 : List Nat)
          = [b0, b1, b2, b3, b4, b5, b6, 0] from rfl]
    show byteBits (packByte [b0, b1, b2, b3, b4, b5, b6, 0] 0 0) ++ [] = _
    rw [byteBits_packByte8 (h b0 (by simp)) (h b1 (by simp)) (h b2 (by simp))
      (h b3 (by simp)) (h b4 (by simp)) (h b5 (by simp)) (h b6 (by simp))
      (by omega)]
    rfl

end Matter

namespace Matter

/-! ## Decimal rendering lemmas -/

/-- Every rendered character is a decimal digit. -/
theorem natDecCharsAux_isDigit : ∀ (fuel n : Nat), n < fuel →
    ∀ c ∈ natDecCharsAux n fuel, (charToDigit c).isSome := by
  intro fuel
  induction fuel with
  | zero => intro n h; omega
  | succ fuel ih =>
    intro n hn c hc
    simp only [natDecCharsAux] at hc
    by_cases h10 : n < 10
    · rw [if_pos h10] at hc
      simp only [List.mem_singleton] at hc
      subst hc
      rw [charToDigit_ofNat h10]
      rfl
    · rw [if_neg h10] at hc
      rcases List.mem_append.mp hc with h | h
      · exact ih (n / 10) (by omega) c h
      · simp only [List.mem_singleton] at h
        subst h
        rw [charToDigit_ofNat (Nat.mod_lt n (by omega))]
        rfl

/-- The rendering of a value below `10 ^ w` has at most `w` characters. -/
theorem natDecCharsAux_length_le : ∀ (fuel n w : Nat), n < fuel → 1 ≤ w →
    n < 10 ^ w → (natDecCharsAux n fuel).length ≤ w := by
  intro fuel
  induction fuel with
  | zero => intro n w h; omega
  | succ fuel ih =>
    intro n w hn hw hpow
    simp only [natDecCharsAux]
    by_cases h10 : n < 10
    · rw [if_pos h10]
      simpa using hw
    · rw [if_neg h10]
      rw [List.length_append]
      have hw2 : 2 ≤ w := by
        by_contra hlt
        have hw1 : w = 1 := by omega
        subst hw1
        rw [pow_one] at hpow
        omega
      have hpows : 10 ^ (w - 1) * 10 = 10 ^ w := by
        rw [← pow_succ]
        congr 1
        omega
      have hdivpow : n / 10 < 10 ^ (w - 1) := by
        rw [Nat.div_lt_iff_lt_mul (by omega)]
        omega
      have := ih (n / 10) (w - 1) (by omega) (by omega) hdivpow
      simp only [List.length_singleton]
      omega

/-- Every character of `natDecChars` is a decimal digit. -/
theorem natDecChars_isDigit {n : Nat} : ∀ c ∈ natDecChars n, (charToDigit c).isSome :=
  natDecCharsAux_isDigit (n + 1) n (by omega)

/-- Character count of `natDecChars` for bounded values. -/
theorem natDecChars_length_le {n w : Nat} (hw : 1 ≤ w) (h : n < 10 ^ w) :
    (natDecChars n).length ≤ w :=
  natDecCharsAux_length_le (n + 1) n w (by omega) hw h

/-- The zero-padded rendering has exactly the requested width when the plain
rendering fits. -/
theorem padDecString_length {n w : Nat} (h : (natDecChars n).length ≤ w) :
    (padDecString n w).data.length = w := by
  simp only [padDecString, List.length_append, List.length_replicate]
  omega

/-- Every character of the zero-padded rendering is a decimal digit. -/
theorem padDecString_isDigit {n w : Nat} :
    ∀ c ∈ (padDecString n w).data, (charToDigit c).isSome := by
  intro c hc
  simp only [padDecString] at hc
  rcases List.mem_append.mp hc with h | h
  · rw [List.eq_of_mem_replicate h]
    rfl
  · exact natDecChars_isDigit c h

/-- Checksums produced by `calculate_checksum` are single digits. -/
theorem calculate_checksum_lt {s : String} {chk : Nat}
    (h : calculate_checksum s = .ok chk) : chk < 10 := by
  unfold calculate_checksum at h
  cases hsd : string_to_digits s with
  | error e => rw [hsd] at h; exact absurd h (by simp)
  | ok ds =>
    rw [hsd] at h
    simp only [Except.ok.injEq] at h
    subst h
    have hb : ∀ d ∈ ds.reverse, d < 10 := fun d hd =>
      string_to_digits_bound hsd d (List.mem_reverse.mp hd)
    exact invT_lt (verhoeffFold_lt hb 1 0 (by omega))

/-! ## Manual layout serialization shape -/

/-- The three decimal chunks sliced out of a serialized Manual layout record
are bounded by 8, 2^16 and 2^13 respectively: the version bit pins the first
chunk below 8 and the slice widths bound the other two. -/
theorem manual_chunks_shape {F D L M : Nat} {VB PB : List Nat}
    (hVB : ∀ b ∈ VB, b ≤ 1) (hPB : ∀ b ∈ PB, b ≤ 1) :
    bits_to_u64_be ((bytes_to_bits_be (bits_to_bytes_be (fieldBits 0 1 ++
        fieldBits F 1 ++ fieldBits D 4 ++ fieldBits L 14 ++ fieldBits M 13 ++
        VB ++ PB ++ fieldBits 0 7))).take 4) < 8 ∧
    bits_to_u64_be (((bytes_to_bits_be (bits_to_bytes_be (fieldBits 0 1 ++
        fieldBits F 1 ++ fieldBits D 4 ++ fieldBits L 14 ++ fieldBits M 13 ++
        VB ++ PB ++ fieldBits 0 7))).drop 4).take 16) < 65536 ∧
    bits_to_u64_be (((bytes_to_bits_be (bits_to_bytes_be (fieldBits 0 1 ++
        fieldBits F 1 ++ fieldBits D 4 ++ fieldBits L 14 ++ fieldBits M 13 ++
        VB ++ PB ++ fieldBits 0 7))).drop 20).take 13) < 8192 := by
  set CONCAT := fieldBits 0 1 ++ fieldBits F 1 ++ fieldBits D 4 ++
    fieldBits L 14 ++ fieldBits M 13 ++ VB ++ PB ++ fieldBits 0 7 with hCONCAT
  have hle : ∀ b ∈ CONCAT, b ≤ 1 := by
    intro b hb
    rw [hCONCAT] at hb
    simp only [List.append_assoc, List.mem_append] at hb
    rcases hb with h | h | h | h | h | h | h | h
    · exact fieldBits_le_one b h
    · exact fieldBits_le_one b h
    · exact fieldBits_le_one b h
    · exact fieldBits_le_one b h
    · exact fieldBits_le_one b h
    · exact hVB b h
    · exact hPB b h
    · exact fieldBits_le_one b h
  have hrt := bits_bytes_round_trip CONCAT hle
  have hbitsle : ∀ b ∈ bytes_to_bits_be (bits_to_bytes_be CONCAT), b ≤ 1 := by
    rw [hrt]
    intro b hb
    rcases List.mem_append.mp hb with h | h
    · exact hle b h
    · rw [List.eq_of_mem_replicate h]
      omega
  refine ⟨?_, ?_, ?_⟩
  · have htake : (bytes_to_bits_be (bits_to_bytes_be CONCAT)).take 4
        = [0, (F >>> 0) &&& 1, (D >>> 3) &&& 1, (D >>> 2) &&& 1] := by
      rw [hrt]
      rfl
    rw [htake]
    have hmem : ∀ b ∈ [(F >>> 0) &&& 1, (D >>> 3) &&& 1, (D >>> 2) &&& 1],
        b ≤ 1 := by
      intro b hb
      rcases List.mem_cons.mp hb with rfl | hb
      · exact Nat.and_le_right
      · rcases List.mem_cons.mp hb with rfl | hb
        · exact Nat.and_le_right
        · rcases List.mem_cons.mp hb with rfl | hb
          · exact Nat.and_le_right
          · exact absurd hb (by simp)
    have h01 : ∀ b ∈ [0, (F >>> 0) &&& 1, (D >>> 3) &&& 1, (D >>> 2) &&& 1],
        b ≤ 1 := by
      intro b hb
      rcases List.mem_cons.mp hb with rfl | hb
      · omega
      · exact hmem b hb
    rw [bits_to_u64_be_eq h01 (by simp)]
    show List.foldl (fun acc b => 2 * acc + b)
      (2 * 0 + 0) [(F >>> 0) &&& 1, (D >>> 3) &&& 1, (D >>> 2) &&& 1] < 8
    have := bitsVal_foldl_lt [(F >>> 0) &&& 1, (D >>> 3) &&& 1,
      (D >>> 2) &&& 1] 0 hmem
    simpa using this
  · have hmem : ∀ b ∈ ((bytes_to_bits_be (bits_to_bytes_be CONCAT)).drop
        4).take 16, b ≤ 1 := fun b hb =>
      hbitsle b (List.mem_of_mem_drop (List.mem_of_mem_take hb))
    have hlen : (((bytes_to_bits_be (bits_to_bytes_be CONCAT)).drop
        4).take 16).length ≤ 16 := by
      simp [List.length_take]
    calc bits_to_u64_be (((bytes_to_bits_be (bits_to_bytes_be
          CONCAT)).drop 4).take 16)
        = bitsVal (((bytes_to_bits_be (bits_to_bytes_be CONCAT)).drop
            4).take 16) := bits_to_u64_be_eq hmem (by omega)
      _ < 2 ^ (((bytes_to_bits_be (bits_to_bytes_be CONCAT)).drop
            4).take 16).length := bitsVal_lt hmem
      _ ≤ 2 ^ 16 := Nat.pow_le_pow_right (by omega) hlen
      _ = 65536 := by norm_num
  · have hmem : ∀ b ∈ ((bytes_to_bits_be (bits_to_bytes_be CONCAT)).drop
        20).take 13, b ≤ 1 := fun b hb =>
      hbitsle b (List.mem_of_mem_drop (List.mem_of_mem_take hb))
    have hlen : (((bytes_to_bits_be (bits_to_bytes_be CONCAT)).drop
        20).take 13).length ≤ 13 := by
      simp [List.length_take]
    calc bits_to_u64_be (((bytes_to_bits_be (bits_to_bytes_be
          CONCAT)).drop 20).take 13)
        = bitsVal (((bytes_to_bits_be (bits_to_bytes_be CONCAT)).drop
            20).take 13) := bits_to_u64_be_eq hmem (by omega)
      _ < 2 ^ (((bytes_to_bits_be (bits_to_bytes_be CONCAT)).drop
            20).take 13).length := bitsVal_lt hmem
      _ ≤ 2 ^ 13 := Nat.pow_le_pow_right (by omega) hlen
      _ = 8192 := by norm_num

end Matter

namespace Matter

/-- Trailing optional 16-bit fields serialize to bit lists. -/
theorem optBits_le_one (o : Option Nat) :
    ∀ b ∈ (match o with | some v => fieldBits v 16 | none => ([] : List Nat)),
      b ≤ 1 := by
  cases o with
  | none => simp
  | some v => exact fieldBits_le_one

/-- Data of a literal string. -/
theorem string_length_data (s : String) : s.length = s.data.length := rfl

/-- Data of a rendered number. -/
theorem natDecString_data (n : Nat) : (natDecString n).data = natDecChars n := rfl

/-- Shape of the final manual-code string: given the three chunk bounds, the
formatted string with its appended check digit has exactly 11 characters, all
decimal digits. -/
theorem code_string_shape {c1 c2 c3 chk : Nat} (h1 : c1 < 8) (h2 : c2 < 65536)
    (h3 : c3 < 8192) {s : String}
    (hcalc : calculate_checksum (natDecString c1 ++ padDecString c2 5 ++
      padDecString c3 4) = .ok chk)
    (h : s = natDecString c1 ++ padDecString c2 5 ++ padDecString c3 4 ++
      (⟨[Char.ofNat (48 + chk)]⟩ : String)) :
    s.length = 11 ∧ ∀ c ∈ s.data, (charToDigit c).isSome := by
  have hlen1 : (natDecChars c1).length = 1 := by
    rw [natDecChars_single (by omega)]
    rfl
  have hlen2 : (natDecChars c2).length ≤ 5 :=
    natDecChars_length_le (by omega) (by norm_num; omega)
  have hlen3 : (natDecChars c3).length ≤ 4 :=
    natDecChars_length_le (by omega) (by norm_num; omega)
  have hchk : chk < 10 := calculate_checksum_lt hcalc
  subst h
  constructor
  · rw [string_length_data]
    simp only [String.data_append, List.length_append, natDecString_data]
    rw [hlen1, padDecString_length hlen2, padDecString_length hlen3]
    rfl
  · intro c hc
    simp only [String.data_append] at hc
    rcases List.mem_append.mp hc with hc | hc
    · rcases List.mem_append.mp hc with hc | hc
      · rcases List.mem_append.mp hc with hc | hc
        · exact natDecChars_isDigit c hc
        · exact padDecString_isDigit c hc
      · exact padDecString_isDigit c hc
    · have hcc : c = Char.ofNat (48 + chk) := by
        simpa using hc
      subst hcc
      rw [charToDigit_ofNat hchk]
      rfl

set_option maxHeartbeats 2000000 in
/-- Claim C8: whenever manual-code generation succeeds, the
produced string has exactly 11 characters, all decimal digits (one digit for
the 4-bit chunk, five for the 16-bit chunk, four for the 13-bit one, plus the
check digit); in particular the VID/PID chunks are never emitted, whatever
the flow, VID and PID. -/
theorem c8_manual_code_shape (p : SetupPayload) (s : String)
    (h : p.to_manual_code_str = .ok s) :
    s.length = 11 ∧ ∀ c ∈ s.data, (charToDigit c).isSome := by
  simp only [SetupPayload.to_manual_code_str] at h
  split at h
  all_goals split at h
  any_goals exact Except.noConfusion h
  all_goals simp only [ManualCodeData.to_bytes] at h
  all_goals split at h
  any_goals exact Except.noConfusion h
  all_goals {
    rename_i chk hcalc
    simp only [Except.ok.injEq] at h
    exact code_string_shape
      (manual_chunks_shape (optBits_le_one _) (optBits_le_one _)).1
      (manual_chunks_shape (optBits_le_one _) (optBits_le_one _)).2.1
      (manual_chunks_shape (optBits_le_one _) (optBits_le_one _)).2.2
      hcalc h.symm
  }

/-- The concrete instance of claim C8 at the reference descriptor. -/
theorem c8_manual_code_shape_witness :
    ("11237442363" : String).length = 11 :=
  (c8_manual_code_shape
    (SetupPayload.mk (some 1132) 4 69414998 (some 4) .Standard (some 0xfff1)
      (some 0x8000)) "11237442363" (by decide)).1

end Matter

namespace Matter

/-! ## Field values of the layout reader -/

/-- Peeling the most significant bit off a field write. -/
theorem fieldBits_succ (v w : Nat) :
    fieldBits v (w + 1) = ((v >>> w) &&& 1) :: fieldBits v w := by
  simp [fieldBits, List.range_succ]

/-- Folding a field write from any accumulator. -/
theorem bitsVal_fieldBits_aux (v : Nat) : ∀ (w acc : Nat),
    (fieldBits v w).foldl (fun acc b => 2 * acc + b) acc
      = acc * 2 ^ w + v % 2 ^ w := by
  intro w
  induction w with
  | zero =>
    intro acc
    simp [fieldBits, Nat.mod_one]
  | succ w ih =>
    intro acc
    rw [fieldBits_succ]
    simp only [List.foldl_cons]
    rw [ih (2 * acc + ((v >>> w) &&& 1)), Nat.shiftRight_eq_div_pow,
      Nat.and_one_is_mod, Nat.mod_pow_succ, pow_succ]
    ring

/-- Reading back a field write recovers the value modulo the width. -/
theorem bitsVal_fieldBits {v w : Nat} (hv : v < 2 ^ w) :
    bitsVal (fieldBits v w) = v := by
  unfold bitsVal
  rw [bitsVal_fieldBits_aux v w 0, Nat.mod_eq_of_lt hv]
  omega

/-- Successful `u64_to_bits_be` calls below width 64 produce exactly the
field write of a value that fits the width. -/
theorem u64_to_bits_be_ok {val w : Nat} {l : List Nat} (hw : w < 64)
    (h : u64_to_bits_be val w = .ok l) : val < 2 ^ w ∧ l = fieldBits val w := by
  unfold u64_to_bits_be at h
  by_cases hc : val ≠ 0 ∧ w < 64 ∧ val >>> w ≠ 0
  · rw [if_pos hc] at h
    exact absurd h (by simp)
  · rw [if_neg hc] at h
    simp only [Except.ok.injEq] at h
    have hval : val < 2 ^ w := by
      push_neg at hc
      rcases Nat.eq_zero_or_pos val with h0 | hpos
      · subst h0
        exact Nat.pos_pow_of_pos w (by omega)
      · have hsh : val >>> w = 0 := hc (by omega) hw
        rw [Nat.shiftRight_eq_div_pow] at hsh
        by_contra hge
        have : 1 ≤ val / 2 ^ w :=
          (Nat.le_div_iff_mul_le (Nat.pos_pow_of_pos w (by omega))).mpr (by omega)
        omega
    refine ⟨hval, ?_⟩
    subst h
    unfold fieldBits
    apply List.map_congr_left
    intro i hi
    have : i < w := by
      rw [List.mem_reverse, List.mem_range] at hi
      exact hi
    rw [if_pos (by omega)]

end Matter

namespace Matter

set_option maxHeartbeats 2000000 in
/-- Symbolic execution of the layout reader on a long-form bit stream: when
the `vid_pid_present` bit of the first chunk is set, the reader returns a
record carrying the two 16-bit VID/PID chunk values. -/
theorem from_bytes_long {c1 c2 c3 c4 c5 : Nat} (h4 : c4 < 2 ^ 16)
    (h5 : c5 < 2 ^ 16) (hbit : (c1 >>> 2) &&& 1 = 1) :
    ∃ container, ManualCodeData.from_bytes (bits_to_bytes_be (fieldBits c1 4 ++
        fieldBits c2 16 ++ fieldBits c3 13 ++ (fieldBits c4 16 ++ fieldBits c5 16) ++
        List.replicate 7 0)) = .ok container ∧
      container.vid = some c4 ∧ container.pid = some c5 := by
  have hle : ∀ b ∈ (fieldBits c1 4 ++ fieldBits c2 16 ++ fieldBits c3 13 ++
      (fieldBits c4 16 ++ fieldBits c5 16) ++ List.replicate 7 0), b ≤ 1 := by
    intro b hb
    simp only [List.append_assoc, List.mem_append] at hb
    rcases hb with h | h | h | h | h | h
    · exact fieldBits_le_one b h
    · exact fieldBits_le_one b h
    · exact fieldBits_le_one b h
    · exact fieldBits_le_one b h
    · exact fieldBits_le_one b h
    · rw [List.eq_of_mem_replicate h]
      omega
  have hrt := bits_bytes_round_trip _ hle
  have hlen : (fieldBits c1 4 ++ fieldBits c2 16 ++ fieldBits c3 13 ++
      (fieldBits c4 16 ++ fieldBits c5 16) ++ List.replicate 7 0).length = 72 := by
    simp [fieldBits_length]
  rw [hlen] at hrt
  rw [show (8 - 72 % 8) % 8 = 0 from rfl, List.replicate_zero,
    List.append_nil] at hrt
  unfold ManualCodeData.from_bytes
  rw [hrt]
  rw [show fieldBits c1 4 = [(c1 >>> 3) &&& 1, (c1 >>> 2) &&& 1,
    (c1 >>> 1) &&& 1, (c1 >>> 0) &&& 1] from rfl]
  rw [hbit]
  refine ⟨_, rfl, ?_, ?_⟩
  · show some (bitsVal (fieldBits c4 16)) = some c4
    rw [bitsVal_fieldBits h4]
  · show some (bitsVal (fieldBits c5 16)) = some c5
    rw [bitsVal_fieldBits h5]

set_option maxHeartbeats 2000000 in
/-- Symbolic execution of the layout reader on a short-form bit stream: when
the `vid_pid_present` bit of the first chunk is clear, the reader returns a
record with absent VID and PID. -/
theorem from_bytes_short {c1 c2 c3 : Nat} (hbit : (c1 >>> 2) &&& 1 = 0) :
    ∃ container, ManualCodeData.from_bytes (bits_to_bytes_be (fieldBits c1 4 ++
        fieldBits c2 16 ++ fieldBits c3 13 ++ List.replicate 32 0 ++
        List.replicate 7 0)) = .ok container ∧
      container.vid = none ∧ container.pid = none := by
  have hle : ∀ b ∈ (fieldBits c1 4 ++ fieldBits c2 16 ++ fieldBits c3 13 ++
      List.replicate 32 0 ++ List.replicate 7 0), b ≤ 1 := by
    intro b hb
    simp only [List.append_assoc, List.mem_append] at hb
    rcases hb with h | h | h | h | h
    · exact fieldBits_le_one b h
    · exact fieldBits_le_one b h
    · exact fieldBits_le_one b h
    · rw [List.eq_of_mem_replicate h]
      omega
    · rw [List.eq_of_mem_replicate h]
      omega
  have hrt := bits_bytes_round_trip _ hle
  have hlen : (fieldBits c1 4 ++ fieldBits c2 16 ++ fieldBits c3 13 ++
      List.replicate 32 0 ++ List.replicate 7 0).length = 72 := by
    simp [fieldBits_length]
  rw [hlen] at hrt
  rw [show (8 - 72 % 8) % 8 = 0 from rfl, List.replicate_zero,
    List.append_nil] at hrt
  unfold ManualCodeData.from_bytes
  rw [hrt]
  rw [show fieldBits c1 4 = [(c1 >>> 3) &&& 1, (c1 >>> 2) &&& 1,
    (c1 >>> 1) &&& 1, (c1 >>> 0) &&& 1] from rfl]
  rw [hbit]
  exact ⟨_, rfl, rfl, rfl⟩

end Matter


namespace Matter

/-- The one-character chunk at position 0 parses to the first digit. -/
theorem parseChunk_first {s : String} {c : Char} {d : Nat}
    (hc : s.data.head? = some c) (hd : charToDigit c = some d) :
    parseChunk s 0 1 = .ok d := by
  obtain ⟨tail, hdata⟩ : ∃ tail, s.data = c :: tail := by
    cases hsd : s.data with
    | nil => rw [hsd] at hc; exact Option.noConfusion hc
    | cons x xs =>
      rw [hsd] at hc
      simp only [List.head?_cons, Option.some.injEq] at hc
      exact ⟨xs, by rw [hc]⟩
  have hd' : d = c.toNat - 48 := by
    unfold charToDigit at hd
    by_cases hcnd : 48 ≤ c.toNat ∧ c.toNat ≤ 57
    · rw [if_pos hcnd] at hd
      simp only [Option.some.injEq] at hd
      omega
    · rw [if_neg hcnd] at hd
      exact Option.noConfusion hd
  simp only [parseChunk, hdata]
  rw [if_pos (by simp)]
  have hsub : ((c :: tail).drop 0).take (1 - 0) = [c] := rfl
  rw [hsub]
  rw [if_neg (by simp [hd])]
  show Except.ok (digitsVal [c]) = Except.ok d
  simp only [digitsVal, List.foldl_cons, List.foldl_nil]
  rw [hd']
  norm_num

/-- Bit 2 read by shift-and-mask agrees with masking by `1 <<< 2`. -/
theorem bit2_iff {d : Nat} (hlt : d < 16) :
    ((d >>> 2) &&& 1 = 1 ↔ d &&& (1 <<< 2) ≠ 0)
    ∧ ((d >>> 2) &&& 1 = 0 ↔ d &&& (1 <<< 2) = 0) := by
  have H : ∀ d : Fin 16,
      (((d : Nat) >>> 2) &&& 1 = 1 ↔ (d : Nat) &&& (1 <<< 2) ≠ 0)
      ∧ (((d : Nat) >>> 2) &&& 1 = 0 ↔ (d : Nat) &&& (1 <<< 2) = 0) := by decide
  exact H ⟨d, hlt⟩
end Matter

namespace Matter
/-- Claim C5: manual-code parsing rejects lengths other than 11/21 with
`InvalidManualCodeLength`, rejects checksum-invalid strings with
`InvalidManualCodeChecksum`, rejects first digits above 7 with the
first-digit error, and bit 2 (value 4) of the first digit selects the long
form (VID/PID parsed from positions [10,15) and [15,20)) versus the short
form (VID/PID absent). -/
theorem c5_manual_parse_errors (s : String) :
    (s.utf8ByteSize ≠ 11 ∧ s.utf8ByteSize ≠ 21 →
      ManualCodeData.parse_from_str s
        = .error (.payload (.invalidManualCodeLength s.utf8ByteSize))) ∧
    ((s.utf8ByteSize = 11 ∨ s.utf8ByteSize = 21) → validate s = .ok false →
      ManualCodeData.parse_from_str s
        = .error (.payload .invalidManualCodeChecksum)) ∧
    ((s.utf8ByteSize = 11 ∨ s.utf8ByteSize = 21) → validate s = .ok true →
      ∀ c d, s.data.head? = some c → charToDigit c = some d → 7 < d →
        ManualCodeData.parse_from_str s
          = .error (.payload .invalidManualCodeFirstDigit)) ∧
    (∀ container, ManualCodeData.parse_from_str s = .ok container →
      ∀ c d, s.data.head? = some c → charToDigit c = some d →
        (d &&& 4 ≠ 0 →
          ∃ v4 v5, parseChunk s 10 15 = .ok v4 ∧ parseChunk s 15 20 = .ok v5 ∧
            container.vid = some v4 ∧ container.pid = some v5) ∧
        (d &&& 4 = 0 → container.vid = none ∧ container.pid = none)) := by
  refine ⟨?_, ?_, ?_, ?_⟩
  · intro hne
    simp only [ManualCodeData.parse_from_str]
    rw [if_pos hne]
  · intro hlen hval
    simp only [ManualCodeData.parse_from_str]
    rw [if_neg (by rcases hlen with h | h <;> omega)]
    split
    · rename_i e heq
      rw [hval] at heq
      exact Except.noConfusion heq
    · rfl
    · rename_i heq
      rw [hval] at heq
      simp at heq
  · intro hlen hval c d hc hd h7
    simp only [ManualCodeData.parse_from_str]
    rw [if_neg (by rcases hlen with h | h <;> omega)]
    have hsome : s.data.head? >>= charToDigit = some d := by
      rw [hc]
      exact hd
    split
    · rename_i e heq
      rw [hval] at heq
      exact Except.noConfusion heq
    · rename_i heq
      rw [hval] at heq
      simp at heq
    · split
      · rename_i heq
        rw [hsome] at heq
        exact Option.noConfusion heq
      · rename_i fd heq
        rw [hsome] at heq
        injection heq with heq
        subst heq
        rw [if_pos h7]
  · intro container h c d hc hd
    have hfd : ∀ fd, s.data.head? >>= charToDigit = some fd → fd = d := by
      intro fd heq
      rw [hc] at heq
      have heq' : charToDigit c = some fd := heq
      rw [hd] at heq'
      injection heq' with heq'
      exact heq'.symm
    simp only [ManualCodeData.parse_from_str] at h
    split at h
    · exact Except.noConfusion h
    split at h
    · exact Except.noConfusion h
    · exact Except.noConfusion h
    split at h
    · exact Except.noConfusion h
    rename_i fd hhead
    split at h
    · exact Except.noConfusion h
    rename_i h7
    have hfdd : fd = d := hfd fd hhead
    subst hfdd
    split at h
    · exact Except.noConfusion h
    rename_i chunk1 hch1
    split at h
    · exact Except.noConfusion h
    rename_i chunk2 hch2
    split at h
    · exact Except.noConfusion h
    rename_i chunk3 hch3
    split at h
    · exact Except.noConfusion h
    rename_i chunk4 chunk5 hpair
    split at h
    · exact Except.noConfusion h
    rename_i b1 hb1
    split at h
    · exact Except.noConfusion h
    rename_i b2 hb2
    split at h
    · exact Except.noConfusion h
    rename_i b3 hb3
    split at h
    · exact Except.noConfusion h
    rename_i bvp hbvp
    have hc1d : chunk1 = fd := by
      have hpc := parseChunk_first hc hd
      rw [hpc] at hch1
      injection hch1 with hch1
      exact hch1.symm
    subst hc1d
    have hd16 : chunk1 < 16 := by omega
    by_cases hlong : chunk1 &&& (1 <<< 2) ≠ 0
    · rw [if_pos hlong] at hpair hbvp
      split at hpair
      · exact Except.noConfusion hpair
      rename_i c4v hch4
      split at hpair
      · exact Except.noConfusion hpair
      rename_i c5v hch5
      simp only [Except.ok.injEq, Prod.mk.injEq] at hpair
      obtain ⟨h45a, h45b⟩ := hpair
      subst h45a
      subst h45b
      split at hbvp
      · exact Except.noConfusion hbvp
      rename_i b4 hb4
      split at hbvp
      · exact Except.noConfusion hbvp
      rename_i b5 hb5
      simp only [Except.ok.injEq] at hbvp
      subst hbvp
      obtain ⟨hbound4, hf4⟩ := u64_to_bits_be_ok (by omega) hb4
      obtain ⟨hbound5, hf5⟩ := u64_to_bits_be_ok (by omega) hb5
      obtain ⟨hbound1, hf1⟩ := u64_to_bits_be_ok (by omega) hb1
      obtain ⟨hbound2, hf2⟩ := u64_to_bits_be_ok (by omega) hb2
      obtain ⟨hbound3, hf3⟩ := u64_to_bits_be_ok (by omega) hb3
      subst hf1
      subst hf2
      subst hf3
      subst hf4
      subst hf5
      have hbit : (chunk1 >>> 2) &&& 1 = 1 := (bit2_iff hd16).1.mpr hlong
      obtain ⟨cont, hcont, hvid, hpid⟩ := from_bytes_long hbound4 hbound5 hbit
      rw [hcont] at h
      simp only [Except.ok.injEq] at h
      subst h
      constructor
      · intro _
        exact ⟨c4v, c5v, hch4, hch5, hvid, hpid⟩
      · intro h0
        exact absurd h0 hlong
    · rw [if_neg hlong] at hpair hbvp
      simp only [Except.ok.injEq] at hbvp
      subst hbvp
      obtain ⟨hbound1, hf1⟩ := u64_to_bits_be_ok (by omega) hb1
      obtain ⟨hbound2, hf2⟩ := u64_to_bits_be_ok (by omega) hb2
      obtain ⟨hbound3, hf3⟩ := u64_to_bits_be_ok (by omega) hb3
      subst hf1
      subst hf2
      subst hf3
      have hbit : (chunk1 >>> 2) &&& 1 = 0 := (bit2_iff hd16).2.mpr (not_not.mp hlong)
      obtain ⟨cont, hcont, hvid, hpid⟩ := from_bytes_short hbit
      rw [hcont] at h
      simp only [Except.ok.injEq] at h
      subst h
      constructor
      · intro hne
        exact absurd (not_not.mp hlong) hne
      · intro _
        exact ⟨hvid, hpid⟩
end Matter

namespace Matter
theorem c5_manual_parse_errors_witness :
    (ManualCodeData.parse_from_str "123"
        = .error (.payload (.invalidManualCodeLength 3)))
    ∧ (ManualCodeData.parse_from_str "11237442362"
        = .error (.payload .invalidManualCodeChecksum))
    ∧ (ManualCodeData.parse_from_str "91237442368"
        = .error (.payload .invalidManualCodeFirstDigit))
    ∧ (ManualCodeData.parse_from_str "11237442363"
        = .ok ⟨0, 0, 4, 12374, 4236, none, none, 0⟩
      ∧ (⟨0, 0, 4, 12374, 4236, none, none, 0⟩ : ManualCodeData).vid = none
      ∧ (⟨0, 0, 4, 12374, 4236, none, none, 0⟩ : ManualCodeData).pid = none) := by
  refine ⟨?_, ?_, ?_, ?_⟩
  · exact (c5_manual_parse_errors "123").1 (by decide)
  · exact (c5_manual_parse_errors "11237442362").2.1 (by decide) (by decide)
  · exact (c5_manual_parse_errors "91237442368").2.2.1 (by decide) (by decide)
      '9' 9 (by decide) (by decide) (by decide)
  · have hok : ManualCodeData.parse_from_str "11237442363"
        = .ok ⟨0, 0, 4, 12374, 4236, none, none, 0⟩ := by decide
    have hvp := ((c5_manual_parse_errors "11237442363").2.2.2 _ hok '1' 1
      (by decide) (by decide)).2 (by decide)
    exact ⟨hok, hvp.1, hvp.2⟩
end Matter
